import Mathlib

/-!
# uc_divider: clock divider and debounced button array

A shallow embedding of `MyDivision.h` and `MyButtons.h`.

The Arduino calls the classes make (`pinMode`, `digitalWrite`, `delay`) are
recorded as a list of `HalCall`s, oldest first; a method is a function from the
object to the new object and the calls it made.  The level of every output pin
is kept in a `Board`, on which a list of calls is replayed.

`int` values are unbounded integers; that the one increment of the divider stays
inside the range of a `w`-bit `int` is stated with `wrapInt`, and
`MyDivision.nextW` is `next()` with the increment of a `w`-bit `int`, which
wraps; the two agree wherever `current + 1` is an `int`.  `unsigned long`
values are naturals below `2 ^ w`, subtracted modulo `2 ^ w` by `subU`.
-/

namespace UcDivider

/-! ## Hardware abstraction -/

/-- The two values `digitalWrite` takes and `digitalRead` returns. -/
inductive Level where
  | LOW
  | HIGH
deriving DecidableEq, Repr

/-- The pin modes the two classes use. -/
inductive PinMode where
  | OUTPUT
  | INPUT_PULLUP
deriving DecidableEq, Repr

/-- One call into the Arduino core that changes or paces the hardware. -/
inductive HalCall where
  | pinMode (pin : Int) (mode : PinMode)
  | digitalWrite (pin : Int) (val : Level)
  | delay (ms : Nat)
deriving DecidableEq, Repr

/-- The level last written to each pin. -/
abbrev Board := Int → Level

/-- Effect of one call on the pin levels: only `digitalWrite` changes one. -/
def Board.apply (b : Board) : HalCall → Board
  | HalCall.digitalWrite pin val => fun p => if p = pin then val else b p
  | HalCall.pinMode _ _ => b
  | HalCall.delay _ => b

/-- Replays a list of calls, oldest first. -/
def Board.run (b : Board) : List HalCall → Board
  | [] => b
  | c :: cs => Board.run (b.apply c) cs

/-- Is the call a write of `val` to `pin`? -/
def HalCall.isWrite (pin : Int) (val : Level) (c : HalCall) : Bool :=
  decide (c = HalCall.digitalWrite pin val)

/-- The pin a call addresses, if it addresses one. -/
def HalCall.pin? : HalCall → Option Int
  | HalCall.pinMode pin _ => some pin
  | HalCall.digitalWrite pin _ => some pin
  | HalCall.delay _ => none

/-! ## MyDivision -/

/-- The fields of `class MyDivision`. -/
structure MyDivision where
  count : Int
  current : Int
  pin : Int
  halfCount : Int
deriving DecidableEq, Repr

/-- `MyDivision::MyDivision(int _pin, int _count)`; `/` of C truncates. -/
def MyDivision.new (_pin _count : Int) : MyDivision :=
  { count := _count
    halfCount := Int.tdiv _count 2
    pin := _pin
    current := -1 }

/-- `MyDivision::reset()`. -/
def MyDivision.reset (s : MyDivision) : MyDivision × List HalCall :=
  ({ s with current := -1 },
    [HalCall.digitalWrite s.pin Level.HIGH, HalCall.delay 2,
      HalCall.digitalWrite s.pin Level.LOW])

/-- `MyDivision::begin()`. -/
def MyDivision.begin (s : MyDivision) : MyDivision × List HalCall :=
  let r := s.reset
  (r.1, HalCall.pinMode s.pin PinMode.OUTPUT :: r.2)

/-- `MyDivision::next()`. -/
def MyDivision.next (s : MyDivision) : MyDivision × List HalCall :=
  let c := s.current + 1
  if c = s.halfCount then
    ({ s with current := c }, [HalCall.digitalWrite s.pin Level.LOW])
  else if c = s.count then
    ({ s with current := 0 }, [HalCall.digitalWrite s.pin Level.HIGH])
  else
    ({ s with current := c }, [])

/-- A divider together with the board it drives. -/
structure Sys where
  dev : MyDivision
  board : Board

/-- The three public methods. -/
inductive Op where
  | begin
  | reset
  | next
deriving DecidableEq, Repr

/-- The method an `Op` names. -/
def Op.method : Op → MyDivision → MyDivision × List HalCall
  | Op.begin => MyDivision.begin
  | Op.reset => MyDivision.reset
  | Op.next => MyDivision.next

/-- One method call on the system: the object changes, the calls it made are
replayed on the board. -/
def Sys.step (s : Sys) (op : Op) : Sys :=
  let r := op.method s.dev
  { dev := r.1, board := s.board.run r.2 }

/-- A sequence of method calls, first call first. -/
def Sys.exec (s : Sys) : List Op → Sys
  | [] => s
  | op :: ops => Sys.exec (s.step op) ops

/-- The system after `n` calls of `next()`. -/
def Sys.nextN (s : Sys) : Nat → Sys
  | 0 => s
  | n + 1 => Sys.nextN (s.step Op.next) n

/-- The hardware calls made by call number `k` (from 1) of a run of `next()`
calls started in `s`. -/
def Sys.callsOfNext (s : Sys) (k : Nat) : List HalCall :=
  ((s.nextN (k - 1)).dev.next).2

/-- Level of the divider's own pin. -/
def Sys.out (s : Sys) : Level :=
  s.board s.dev.pin

/-- Two's-complement value of `x` in a `w`-bit `int`. -/
def wrapInt (w : Nat) (x : Int) : Int :=
  (x + 2 ^ (w - 1)) % 2 ^ w - 2 ^ (w - 1)

/-- Largest value of a `w`-bit `int`. -/
def intMax (w : Nat) : Int :=
  2 ^ (w - 1) - 1

/-- `MyDivision::next()` on a target whose `int` has `w` bits: `current++` is the
two's-complement increment, which wraps from the largest `int` to the smallest,
as the compiled code does. -/
def MyDivision.nextW (w : Nat) (s : MyDivision) : MyDivision × List HalCall :=
  let c := wrapInt w (s.current + 1)
  if c = s.halfCount then
    ({ s with current := c }, [HalCall.digitalWrite s.pin Level.LOW])
  else if c = s.count then
    ({ s with current := 0 }, [HalCall.digitalWrite s.pin Level.HIGH])
  else
    ({ s with current := c }, [])

/-- Number of pulses of the first `n` after which the own pin has level `v`
(pulse 0 is the state the run starts in). -/
def Sys.pulsesAt (s : Sys) (v : Level) (n : Nat) : Nat :=
  (List.range n).countP (fun k => decide ((s.nextN k).out = v))

/-- Number of writes of `v` to the own pin made by the first `n` calls of
`next()` started in `s`. -/
def Sys.writesWithin (s : Sys) (v : Level) (n : Nat) : Nat :=
  ((List.range n).map (fun k =>
    (s.callsOfNext (k + 1)).countP (HalCall.isWrite s.dev.pin v))).sum

/-- Does this `next()` take the branch that sets `current` back to 0? -/
def MyDivision.rewinds (d : MyDivision) : Bool :=
  decide (d.current + 1 ≠ d.halfCount ∧ d.current + 1 = d.count)

/-- Ghost flag along `Sys.exec`: has a `next()` rewound the counter since the last
`reset()` or `begin()`?  `f` is the flag before the calls. -/
def Sys.rewound (s : Sys) : List Op → Bool → Bool
  | [], f => f
  | Op.next :: ops, f => Sys.rewound (s.step Op.next) ops (f || s.dev.rewinds)
  | Op.reset :: ops, _ => Sys.rewound (s.step Op.reset) ops false
  | Op.begin :: ops, _ => Sys.rewound (s.step Op.begin) ops false

/-! ## MyButtons -/

/-- `enum button`. -/
inductive button where
  | PRESSED
  | RELEASED
deriving DecidableEq, Repr

/-- The fields of `class MyButtons`.  `byte` values are naturals; the arrays are
lists; `_handler` is the address of the callback, and the calls `on` makes through
it are returned as `handled`. -/
structure MyButtons where
  _num : Nat
  _btnPins : List Nat
  lastButtonState : List Nat
  buttonState : List Nat
  _handler : Nat
  lastDebounceTime : Nat
  debounceDelay : Nat
  reading : List Nat
deriving DecidableEq, Repr

/-- `MyButtons::MyButtons(byte btnPins[], byte num, handler, byte debounce)`.
The loop copies the first `num` pins and fills both state arrays with 1.
`new byte[_num]` leaves `reading` indeterminate: `uninit` gives its contents. -/
def MyButtons.new (btnPins : List Nat) (num : Nat) (handler : Nat) (debounce : Nat)
    (uninit : Nat → Nat) : MyButtons :=
  { _num := num
    _handler := handler
    debounceDelay := debounce
    _btnPins := btnPins.take num
    lastButtonState := List.replicate num 1
    buttonState := List.replicate num 1
    lastDebounceTime := 0
    reading := (List.range num).map uninit }

/-- `MyButtons::begin()`: one `pinMode` per button, in index order. -/
def MyButtons.begin (s : MyButtons) : List HalCall :=
  (List.range s._num).map (fun i => HalCall.pinMode (s._btnPins.getD i 0) PinMode.INPUT_PULLUP)

/-- What one call of `on()` sees of the hardware: the level of each pin, and the
milliseconds since start at each successive call of `millis()` it makes. -/
structure Tick where
  digitalRead : Nat → Level
  clock : Nat → Nat

/-- A call of `on()` during which the clock does not advance. -/
def Tick.steady (levels : Nat → Level) (now : Nat) : Tick :=
  { digitalRead := levels, clock := fun _ => now }

/-- `millis()`: an `unsigned long` of `w` bits, so the time modulo `2 ^ w`;
`j` counts the earlier calls of `millis()` in this call of `on()`. -/
def Tick.millis (w : Nat) (t : Tick) (j : Nat) : Nat :=
  t.clock j % 2 ^ w

/-- Subtraction of `unsigned long` values of `w` bits. -/
def subU (w : Nat) (a b : Nat) : Nat :=
  (a % 2 ^ w + (2 ^ w - b % 2 ^ w)) % 2 ^ w

/-- `!digitalRead(pin)` stored in a `byte`. -/
def inverted : Level → Nat
  | Level.LOW => 1
  | Level.HIGH => 0

/-- What a call of `on()` leaves: its return value, the object, and the
invocations of `_handler` in order. -/
structure OnResult where
  ret : Bool
  st : MyButtons
  handled : List (Nat × button)
deriving DecidableEq, Repr

/-- The two `if`s around the `_handler` calls of `on()`. -/
def handlerCalls (i : Nat) (r : Nat) : List (Nat × button) :=
  (if r = 1 then [(i, button.PRESSED)] else []) ++
    (if r = 0 then [(i, button.RELEASED)] else [])

/-- The loop of `MyButtons::on()` from index `i` with `k` iterations to go;
`j` is the number of `millis()` calls made so far. -/
def MyButtons.onFrom (w : Nat) (t : Tick) : Nat → Nat → Nat → MyButtons → OnResult
  | 0, _, _, s => { ret := false, st := s, handled := [] }
  | k + 1, i, j, s =>
    let s1 := { s with reading := s.reading.set i (inverted (t.digitalRead (s._btnPins.getD i 0))) }
    let changed := s1.reading.getD i 0 ≠ s1.lastButtonState.getD i 0
    let s2 := if changed then { s1 with lastDebounceTime := t.millis w j } else s1
    let j2 := if changed then j + 1 else j
    let rest := MyButtons.onFrom w t k (i + 1) (j2 + 1)
      { s2 with lastButtonState := s2.lastButtonState.set i (s2.reading.getD i 0) }
    if subU w (t.millis w j2) s2.lastDebounceTime > s2.debounceDelay then
      if s2.reading.getD i 0 ≠ s2.buttonState.getD i 0 then
        { ret := true
          st := { s2 with buttonState := s2.buttonState.set i (s2.reading.getD i 0) }
          handled := handlerCalls i (s2.reading.getD i 0) }
      else rest
    else rest

/-- `MyButtons::on()`. -/
def MyButtons.on (w : Nat) (t : Tick) (s : MyButtons) : OnResult :=
  MyButtons.onFrom w t s._num 0 0 s

/-- Successive calls of `on()`, one per tick: the results in order. -/
def MyButtons.poll (w : Nat) (s : MyButtons) : List Tick → List OnResult
  | [] => []
  | t :: ts => (s.on w t) :: MyButtons.poll w (s.on w t).st ts

/-- Return value and handler invocations of each call. -/
def outcomes (rs : List OnResult) : List (Bool × List (Nat × button)) :=
  rs.map (fun r => (r.ret, r.handled))

/-! ## States the claims start from -/

/-- The system right after the constructor and a `reset()`. -/
def afterReset (pin count : Int) (b : Board) : Sys :=
  (Sys.mk (MyDivision.new pin count) b).step Op.reset

/-- The system right after the constructor and `begin()`. -/
def afterBegin (pin count : Int) (b : Board) : Sys :=
  (Sys.mk (MyDivision.new pin count) b).step Op.begin

/-- The system as a rewinding `next()` leaves it: `current` is 0 and HIGH was
written to the own pin. -/
def afterRewind (pin count : Int) (b : Board) : Sys :=
  { dev := { MyDivision.new pin count with current := 0 }
    board := b.apply (HalCall.digitalWrite pin Level.HIGH) }

/-- A divider with divisor 4 on pin 9, just rewound, on a board with every pin HIGH. -/
def sysFour : Sys :=
  { dev := { count := 4, current := 0, pin := 9, halfCount := 2 }, board := fun _ => Level.HIGH }

/-- Divisor 8 on pin 9, constructed and reset. -/
def sysEight : Sys :=
  afterReset 9 8 (fun _ => Level.HIGH)

/-- Divisor 7 on pin 9, just rewound. -/
def sysSeven : Sys :=
  afterRewind 9 7 (fun _ => Level.LOW)

/-- A divider with divisor 8 on pin 9 and `current = 3`. -/
def divEight : MyDivision :=
  { count := 8, current := 3, pin := 9, halfCount := 4 }

/-- Divisor 2 on pin 9, constructed and begun. -/
def sysTwo : Sys :=
  afterBegin 9 2 (fun _ => Level.HIGH)

/-- What holds of every state `begin()`, `reset()` and `next()` can reach for a
divisor `count`; `f` is the ghost flag of `Sys.rewound`. -/
def Sys.Good (count : Int) (s : Sys) (f : Bool) : Prop :=
  s.dev.count = count ∧ s.dev.halfCount = Int.tdiv count 2 ∧
    -1 ≤ s.dev.current ∧ s.dev.current ≤ count - 1 ∧ (f = true → 0 ≤ s.dev.current) ∧
    s.out = if f = true ∧ s.dev.current < s.dev.halfCount then Level.HIGH else Level.LOW

/-! ## Inputs of the button claims -/

/-- Every pin at its pulled-up level: no button pressed. -/
def idle : Nat → Level :=
  fun _ => Level.HIGH

/-- Every pin pulled LOW: every button pressed. -/
def pressed : Nat → Level :=
  fun _ => Level.LOW

/-- An input that is pressed from `a` ms until `b` ms and idle otherwise. -/
def pressedDuring (a b : Nat) (now : Nat) : Nat → Level :=
  fun _ => if a ≤ now ∧ now < b then Level.LOW else Level.HIGH

/-- Calls of `on()` at the times `ts`, the pins at the levels `lv` in each. -/
def ticksAt (lv : Nat → Level) (ts : List Nat) : List Tick :=
  ts.map (Tick.steady lv)

/-- A single button on pin `p` whose last raw reading is `a` and stable state `b`,
with the callback `cb`. -/
def single (p a b T d r cb : Nat) : MyButtons :=
  { _num := 1, _btnPins := [p], lastButtonState := [a], buttonState := [b], _handler := cb,
    lastDebounceTime := T, debounceDelay := d, reading := [r] }

/-- Calls of `on()` at the times `ts`, each seeing the signal `sig` at its time. -/
def sample (sig : Nat → Nat → Level) (ts : List Nat) : List Tick :=
  ts.map (fun t => Tick.steady (sig t) t)

/-! ## Vocabulary of the claims about `on()` -/

/-- The inverted reading `on()` takes of button `i` when the pins are at `lv`. -/
def MyButtons.input (s : MyButtons) (lv : Nat → Level) (i : Nat) : Nat :=
  inverted (lv (s._btnPins.getD i 0))

/-- The event `on()` reports for a pin level: PRESSED for LOW, RELEASED for HIGH. -/
def eventOf : Level → button
  | Level.LOW => button.PRESSED
  | Level.HIGH => button.RELEASED

/-- The pin list and the three state arrays all have `_num` entries. -/
def MyButtons.WF (s : MyButtons) : Prop :=
  s._btnPins.length = s._num ∧ s.reading.length = s._num ∧
    s.lastButtonState.length = s._num ∧ s.buttonState.length = s._num

/-- The object after the calls of `on()` that `poll` makes. -/
def MyButtons.after (w : Nat) (s : MyButtons) : List Tick → MyButtons
  | [] => s
  | t :: ts => MyButtons.after w (s.on w t).st ts

/-- The value of `reading[i]` right after iteration `i` has assigned it. -/
def MyButtons.readAt (s : MyButtons) (t : Tick) (i : Nat) : Nat :=
  (s.reading.set i (s.input t.digitalRead i)).getD i 0

/-- The value of `lastDebounceTime` after the first `if` of iteration `i`. -/
def MyButtons.timerAt (w : Nat) (s : MyButtons) (t : Tick) (i j : Nat) : Nat :=
  if s.readAt t i ≠ s.lastButtonState.getD i 0 then t.millis w j else s.lastDebounceTime

/-- The number of `millis()` calls made before the second `if` of iteration `i`. -/
def MyButtons.clockAt (s : MyButtons) (t : Tick) (i j : Nat) : Nat :=
  if s.readAt t i ≠ s.lastButtonState.getD i 0 then j + 1 else j

/-- The buttons whose stable state differs from their input `lv`, in index order. -/
def MyButtons.pending (s : MyButtons) (lv : Nat → Level) : List Nat :=
  (List.range s._num).filter (fun i => decide (s.input lv i ≠ s.buttonState.getD i 0))

/-- The loop of `on()` with every array access bounds-checked: `none` as soon as an
index lies outside the array it is used on. -/
def MyButtons.onFromChecked (w : Nat) (t : Tick) : Nat → Nat → Nat → MyButtons → Option OnResult
  | 0, _, _, s => some { ret := false, st := s, handled := [] }
  | k + 1, i, j, s =>
    if i < s._btnPins.length ∧ i < s.reading.length ∧ i < s.lastButtonState.length ∧
        i < s.buttonState.length then
      let s1 :=
        { s with reading := s.reading.set i (inverted (t.digitalRead (s._btnPins.getD i 0))) }
      let changed := s1.reading.getD i 0 ≠ s1.lastButtonState.getD i 0
      let s2 := if changed then { s1 with lastDebounceTime := t.millis w j } else s1
      let j2 := if changed then j + 1 else j
      let rest := MyButtons.onFromChecked w t k (i + 1) (j2 + 1)
        { s2 with lastButtonState := s2.lastButtonState.set i (s2.reading.getD i 0) }
      if subU w (t.millis w j2) s2.lastDebounceTime > s2.debounceDelay then
        if s2.reading.getD i 0 ≠ s2.buttonState.getD i 0 then
          some { ret := true
                 st := { s2 with buttonState := s2.buttonState.set i (s2.reading.getD i 0) }
                 handled := handlerCalls i (s2.reading.getD i 0) }
        else rest
      else rest
    else none

/-- The bounds-checked `on()`. -/
def MyButtons.onChecked (w : Nat) (t : Tick) (s : MyButtons) : Option OnResult :=
  MyButtons.onFromChecked w t s._num 0 0 s

/-- The address of the callback the examples register. -/
def callback : Nat :=
  4096

/-- Three buttons on pins 2, 3, 4 with a delay of 50 ms: the last raw readings are
0, 1, 1 and every stable state is 0. -/
def threeButtons : MyButtons :=
  { _num := 3, _btnPins := [2, 3, 4], lastButtonState := [0, 1, 1], buttonState := [0, 0, 0],
    _handler := callback, lastDebounceTime := 0, debounceDelay := 50, reading := [0, 1, 1] }

/-- Pin 2 idle, every other pin pulled LOW. -/
def allButPinTwo : Nat → Level :=
  fun p => if p = 2 then Level.HIGH else Level.LOW

/-- Two buttons on pins 2, 3 with a delay of 50 ms: button 1 has read 1 since the
timestamp 0 and is not yet stable, button 0 has read 0. -/
def twoButtons : MyButtons :=
  { _num := 2, _btnPins := [2, 3], lastButtonState := [0, 1], buttonState := [0, 0],
    _handler := callback, lastDebounceTime := 0, debounceDelay := 50, reading := [0, 1] }

/-! ## Basic facts about the divider -/

theorem Sys.nextN_succ_right (s : Sys) (n : Nat) :
    s.nextN (n + 1) = (s.nextN n).step Op.next := by
  induction n generalizing s with
  | zero => rfl
  | succ n ih =>
    show (s.step Op.next).nextN (n + 1) = _
    rw [ih]
    rfl

theorem MyDivision.next_count (d : MyDivision) : d.next.1.count = d.count := by
  unfold MyDivision.next
  dsimp only
  split_ifs <;> rfl

theorem MyDivision.next_halfCount (d : MyDivision) : d.next.1.halfCount = d.halfCount := by
  unfold MyDivision.next
  dsimp only
  split_ifs <;> rfl

theorem MyDivision.next_pin (d : MyDivision) : d.next.1.pin = d.pin := by
  unfold MyDivision.next
  dsimp only
  split_ifs <;> rfl

/-- Below `count` the counter advances by one per call, whichever branch runs. -/
theorem MyDivision.next_current_below (d : MyDivision) (h : d.current + 1 < d.count) :
    d.next.1.current = d.current + 1 := by
  unfold MyDivision.next
  dsimp only
  split_ifs with h1 h2
  · rfl
  · omega
  · rfl

theorem Sys.nextN_fields (s : Sys) (n : Nat) :
    (s.nextN n).dev.count = s.dev.count ∧ (s.nextN n).dev.halfCount = s.dev.halfCount ∧
      (s.nextN n).dev.pin = s.dev.pin := by
  induction n with
  | zero => exact ⟨rfl, rfl, rfl⟩
  | succ n ih =>
    rw [Sys.nextN_succ_right]
    obtain ⟨h1, h2, h3⟩ := ih
    refine ⟨?_, ?_, ?_⟩
    · show ((s.nextN n).dev.next).1.count = _
      rw [MyDivision.next_count, h1]
    · show ((s.nextN n).dev.next).1.halfCount = _
      rw [MyDivision.next_halfCount, h2]
    · show ((s.nextN n).dev.next).1.pin = _
      rw [MyDivision.next_pin, h3]

/-- As long as the counter stays below `count`, `n` calls add `n` to it. -/
theorem Sys.nextN_current_below (s : Sys) (n : Nat) (h : s.dev.current + n < s.dev.count) :
    (s.nextN n).dev.current = s.dev.current + n := by
  induction n with
  | zero => simp [Sys.nextN]
  | succ n ih =>
    rw [Sys.nextN_succ_right]
    have hn := ih (by push_cast at h; omega)
    obtain ⟨hc, -, -⟩ := Sys.nextN_fields s n
    show ((s.nextN n).dev.next).1.current = _
    rw [MyDivision.next_current_below _ (by rw [hn, hc]; push_cast at h; omega), hn]
    push_cast
    ring

/-- The constructor's `halfCount` lies strictly between 0 and `count` for `count >= 2`. -/
theorem half_bounds (count half : Int) (hc : 2 ≤ count) (hh : half = Int.tdiv count 2) :
    1 ≤ half ∧ half < count ∧ (count % 2 = 0 → 2 * half = count) := by
  rw [Int.tdiv_eq_ediv (by omega) (by decide)] at hh
  omega

theorem Sys.ext_fields {a b : Sys} (h1 : a.dev = b.dev) (h2 : a.board = b.board) : a = b := by
  cases a
  cases b
  simp only [Sys.mk.injEq]
  exact ⟨h1, h2⟩

/-- The calls one `next()` makes, read off the three branches. -/
theorem MyDivision.next_calls (d : MyDivision) :
    d.next.2 =
      if d.current + 1 = d.halfCount then [HalCall.digitalWrite d.pin Level.LOW]
      else if d.current + 1 = d.count then [HalCall.digitalWrite d.pin Level.HIGH]
      else [] := by
  unfold MyDivision.next
  dsimp only
  split_ifs <;> rfl

/-- The counter after one `next()`. -/
theorem MyDivision.next_current (d : MyDivision) :
    d.next.1.current =
      if d.current + 1 = d.halfCount then d.current + 1
      else if d.current + 1 = d.count then 0
      else d.current + 1 := by
  unfold MyDivision.next
  dsimp only
  split_ifs <;> rfl

/-- The own pin after one `next()`. -/
theorem Sys.step_next_out (s : Sys) :
    (s.step Op.next).out =
      if s.dev.current + 1 = s.dev.halfCount then Level.LOW
      else if s.dev.current + 1 = s.dev.count then Level.HIGH
      else s.out := by
  show (s.board.run s.dev.next.2) s.dev.next.1.pin = _
  rw [MyDivision.next_pin, MyDivision.next_calls]
  split_ifs <;> simp [Board.run, Board.apply, Sys.out]

/-- A `next()` leaves every other pin alone. -/
theorem Sys.step_next_other (s : Sys) (p : Int) (hp : p ≠ s.dev.pin) :
    (s.step Op.next).board p = s.board p := by
  show (s.board.run s.dev.next.2) p = _
  rw [MyDivision.next_calls]
  split_ifs <;> simp [Board.run, Board.apply, hp]

theorem Sys.nextN_other (s : Sys) (n : Nat) (p : Int) (hp : p ≠ s.dev.pin) :
    (s.nextN n).board p = s.board p := by
  induction n with
  | zero => rfl
  | succ n ih =>
    rw [Sys.nextN_succ_right, Sys.step_next_other _ _ (by rw [(Sys.nextN_fields s n).2.2]; exact hp),
      ih]

/-- Below `count` the own pin goes LOW when the counter passes `halfCount` and is
not written otherwise. -/
theorem Sys.nextN_out_below (s : Sys) (n : Nat) (h : s.dev.current + n < s.dev.count) :
    (s.nextN n).out =
      if s.dev.current < s.dev.halfCount ∧ s.dev.halfCount ≤ s.dev.current + n then Level.LOW
      else s.out := by
  induction n with
  | zero =>
    have : ¬ (s.dev.current < s.dev.halfCount ∧ s.dev.halfCount ≤ s.dev.current + (0 : Nat)) := by
      push_cast; omega
    rw [if_neg this]
    rfl
  | succ n ih =>
    push_cast at h
    have hn := ih (by omega)
    have hcur := Sys.nextN_current_below s n (by omega)
    obtain ⟨hc, hh, -⟩ := Sys.nextN_fields s n
    rw [Sys.nextN_succ_right, Sys.step_next_out, hcur, hc, hh, hn]
    push_cast
    split_ifs <;> first | rfl | omega

theorem countP_range_lt (h n : Nat) :
    (List.range n).countP (fun k => decide (k < h)) = min h n := by
  induction n with
  | zero => simp
  | succ n ih =>
    rw [List.range_succ, List.countP_append, ih, List.countP_singleton]
    by_cases hn : n < h
    · rw [if_pos (by simpa using hn)]
      omega
    · rw [if_neg (by simpa using hn)]
      omega

theorem countP_range_ge (h n : Nat) :
    (List.range n).countP (fun k => decide (¬ k < h)) = n - h := by
  induction n with
  | zero => simp
  | succ n ih =>
    rw [List.range_succ, List.countP_append, ih, List.countP_singleton]
    by_cases hn : n < h
    · rw [if_neg (by simpa using hn)]
      omega
    · rw [if_pos (by simpa using hn)]
      omega

/-- One full cycle of the divider, started in the state a rewind leaves. -/
theorem Sys.steady_cycle (s : Sys) (hc : 2 ≤ s.dev.count)
    (hh : s.dev.halfCount = Int.tdiv s.dev.count 2) (h0 : s.dev.current = 0)
    (hp : s.out = Level.HIGH) :
    (∀ k : Nat, 1 ≤ k → (k : Int) ≤ s.dev.count →
      s.callsOfNext k =
        if (k : Int) = s.dev.halfCount then [HalCall.digitalWrite s.dev.pin Level.LOW]
        else if (k : Int) = s.dev.count then [HalCall.digitalWrite s.dev.pin Level.HIGH]
        else []) ∧
    (1 ≤ s.dev.halfCount ∧ s.dev.halfCount < s.dev.count) ∧
    s.nextN s.dev.count.toNat = s ∧
    (∀ k : Nat, (k : Int) < s.dev.count →
      (s.nextN k).out = if (k : Int) < s.dev.halfCount then Level.HIGH else Level.LOW) ∧
    s.pulsesAt Level.HIGH s.dev.count.toNat = s.dev.halfCount.toNat ∧
    s.pulsesAt Level.LOW s.dev.count.toNat = (s.dev.count - s.dev.halfCount).toNat ∧
    (s.dev.count % 2 = 0 → 2 * s.dev.halfCount = s.dev.count) := by
  obtain ⟨hh1, hh2, hev⟩ := half_bounds _ _ hc hh
  have hlev : ∀ k : Nat, (k : Int) < s.dev.count →
      (s.nextN k).out = if (k : Int) < s.dev.halfCount then Level.HIGH else Level.LOW := by
    intro k hk
    rw [Sys.nextN_out_below s k (by omega), h0, hp]
    split_ifs <;> first | rfl | omega
  refine ⟨?_, ⟨hh1, hh2⟩, ?_, hlev, ?_, ?_, hev⟩
  · intro k hk1 hk2
    obtain ⟨hc', hh', hp'⟩ := Sys.nextN_fields s (k - 1)
    have hcur := Sys.nextN_current_below s (k - 1) (by omega)
    unfold Sys.callsOfNext
    rw [MyDivision.next_calls, hcur, hc', hh', hp', h0]
    have e : (0 : Int) + ((k - 1 : Nat) : Int) + 1 = (k : Int) := by omega
    rw [e]
  · obtain ⟨n, hn⟩ : ∃ n : Nat, s.dev.count.toNat = n + 1 := ⟨s.dev.count.toNat - 1, by omega⟩
    rw [hn, Sys.nextN_succ_right]
    obtain ⟨hc', hh', hp'⟩ := Sys.nextN_fields s n
    have hcur := Sys.nextN_current_below s n (by omega)
    have hout := hlev n (by omega)
    have hd : ((s.nextN n).step Op.next).dev = s.dev := by
      show ((s.nextN n).dev.next).1 = s.dev
      have h1 := MyDivision.next_current (s.nextN n).dev
      have h2 := MyDivision.next_count (s.nextN n).dev
      have h3 := MyDivision.next_halfCount (s.nextN n).dev
      have h4 := MyDivision.next_pin (s.nextN n).dev
      rw [hcur, hc', hh', h0] at h1
      rw [if_neg (by omega), if_pos (by omega)] at h1
      cases hs : s.dev
      cases hx : (s.nextN n).dev.next.1
      simp only [hs, hx, hc', hh', hp'] at h1 h2 h3 h4 h0
      simp only [MyDivision.mk.injEq]
      exact ⟨h2, by rw [h1, h0], h4, h3⟩
    have hb : ((s.nextN n).step Op.next).board = s.board := by
      funext p
      by_cases hpin : p = s.dev.pin
      · have := Sys.step_next_out (s.nextN n)
        rw [hcur, hc', hh', h0, if_neg (by omega), if_pos (by omega)] at this
        unfold Sys.out at this hp
        rw [show ((s.nextN n).step Op.next).dev.pin = s.dev.pin from by rw [hd]] at this
        rw [hpin, this, hp]
      · rw [Sys.step_next_other _ _ (by rw [hp']; exact hpin), Sys.nextN_other _ _ _ hpin]
    exact Sys.ext_fields hd hb
  · unfold Sys.pulsesAt
    have : (List.range s.dev.count.toNat).countP (fun k => decide ((s.nextN k).out = Level.HIGH))
        = (List.range s.dev.count.toNat).countP (fun k => decide (k < s.dev.halfCount.toNat)) := by
      apply List.countP_congr
      intro k hk
      rw [List.mem_range] at hk
      rw [hlev k (by omega)]
      by_cases hkh : (k : Int) < s.dev.halfCount
      · simp [hkh]
      · simp [hkh]
    rw [this, countP_range_lt]
    omega
  · unfold Sys.pulsesAt
    have : (List.range s.dev.count.toNat).countP (fun k => decide ((s.nextN k).out = Level.LOW))
        = (List.range s.dev.count.toNat).countP (fun k => decide (¬ k < s.dev.halfCount.toNat)) := by
      apply List.countP_congr
      intro k hk
      rw [List.mem_range] at hk
      rw [hlev k (by omega)]
      by_cases hkh : (k : Int) < s.dev.halfCount
      · simp [hkh]
      · simp [hkh]
    rw [this, countP_range_ge]
    omega

/-- The calls of call number `k` while the counter has not passed `count`. -/
theorem Sys.callsOfNext_below (s : Sys) (k : Nat) (hk : 1 ≤ k)
    (h : s.dev.current + k ≤ s.dev.count) :
    s.callsOfNext k =
      if s.dev.current + k = s.dev.halfCount then [HalCall.digitalWrite s.dev.pin Level.LOW]
      else if s.dev.current + k = s.dev.count then [HalCall.digitalWrite s.dev.pin Level.HIGH]
      else [] := by
  obtain ⟨hc, hh, hp⟩ := Sys.nextN_fields s (k - 1)
  have hcur := Sys.nextN_current_below s (k - 1) (by omega)
  unfold Sys.callsOfNext
  rw [MyDivision.next_calls, hcur, hc, hh, hp]
  have e : s.dev.current + ((k - 1 : Nat) : Int) + 1 = s.dev.current + (k : Int) := by omega
  rw [e]

/-- The counter after `n` calls the last of which rewinds. -/
theorem Sys.nextN_current_rewind (s : Sys) (n : Nat) (hn : 1 ≤ n)
    (h : s.dev.current + n = s.dev.count) (hh : s.dev.halfCount ≠ s.dev.count) :
    (s.nextN n).dev.current = 0 := by
  obtain ⟨m, rfl⟩ : ∃ m : Nat, n = m + 1 := ⟨n - 1, by omega⟩
  push_cast at h
  obtain ⟨hc, hh2, -⟩ := Sys.nextN_fields s m
  have hcur := Sys.nextN_current_below s m (by omega)
  rw [Sys.nextN_succ_right]
  show ((s.nextN m).dev.next).1.current = 0
  rw [MyDivision.next_current, hcur, hc, hh2, if_neg (by omega), if_pos (by omega)]

theorem afterReset_dev (pin count : Int) (b : Board) :
    (afterReset pin count b).dev =
      { count := count, current := -1, pin := pin, halfCount := Int.tdiv count 2 } := rfl

theorem afterReset_out (pin count : Int) (b : Board) :
    (afterReset pin count b).out = Level.LOW := by
  simp [afterReset, Sys.out, Sys.step, Op.method, MyDivision.reset, MyDivision.new, Board.run,
    Board.apply]

/-- The calls of the first nine `next()` after a reset, for divisor 8. -/
theorem calls_of_eight (pin : Int) (b : Board) (k : Nat) (h1 : 1 ≤ k) (h2 : k ≤ 9) :
    (afterReset pin 8 b).callsOfNext k =
      if k = 5 then [HalCall.digitalWrite pin Level.LOW]
      else if k = 9 then [HalCall.digitalWrite pin Level.HIGH] else [] := by
  have h8 : Int.tdiv 8 2 = 4 := by decide
  rw [Sys.callsOfNext_below _ _ h1 (by rw [afterReset_dev]; show (-1 : Int) + k ≤ 8; omega)]
  rw [afterReset_dev]
  simp only [h8]
  split_ifs <;> first | rfl | omega

theorem afterRewind_dev (pin count : Int) (b : Board) :
    (afterRewind pin count b).dev =
      { count := count, current := 0, pin := pin, halfCount := Int.tdiv count 2 } := rfl

theorem afterRewind_out (pin count : Int) (b : Board) :
    (afterRewind pin count b).out = Level.HIGH := by
  simp [afterRewind, Sys.out, MyDivision.new, Board.apply]

theorem wrapInt_eq_self (w : Nat) (x : Int) (hw : 1 ≤ w) (h1 : -(2 ^ (w - 1)) ≤ x)
    (h2 : x < 2 ^ (w - 1)) : wrapInt w x = x := by
  obtain ⟨m, rfl⟩ : ∃ m : Nat, w = m + 1 := ⟨w - 1, by omega⟩
  unfold wrapInt
  have e : (2 : Int) ^ (m + 1) = 2 * 2 ^ m := by ring
  have e2 : m + 1 - 1 = m := by omega
  rw [e2] at h1 h2 ⊢
  rw [e]
  generalize (2 : Int) ^ m = M at h1 h2 ⊢
  rw [Int.emod_eq_of_lt (by omega) (by omega)]
  omega

/-- The counter stays in `-1 .. count - 1` under every method. -/
theorem Sys.step_range (count : Int) (h1 : 1 ≤ count) (s : Sys) (op : Op)
    (hc : s.dev.count = count) (hh : s.dev.halfCount = Int.tdiv count 2)
    (hl : -1 ≤ s.dev.current) (hu : s.dev.current ≤ count - 1) :
    (s.step op).dev.count = count ∧ (s.step op).dev.halfCount = Int.tdiv count 2 ∧
      -1 ≤ (s.step op).dev.current ∧ (s.step op).dev.current ≤ count - 1 := by
  cases op with
  | begin => exact ⟨hc, hh, le_refl _, by show (-1 : Int) ≤ count - 1; omega⟩
  | reset => exact ⟨hc, hh, le_refl _, by show (-1 : Int) ≤ count - 1; omega⟩
  | next =>
    have hhalf : Int.tdiv count 2 < count := by
      rw [Int.tdiv_eq_ediv (by omega) (by decide)]
      omega
    refine ⟨?_, ?_, ?_, ?_⟩
    · show (s.dev.next).1.count = count
      rw [MyDivision.next_count, hc]
    · show (s.dev.next).1.halfCount = _
      rw [MyDivision.next_halfCount, hh]
    · show -1 ≤ (s.dev.next).1.current
      rw [MyDivision.next_current]
      split_ifs <;> omega
    · show (s.dev.next).1.current ≤ count - 1
      rw [MyDivision.next_current, hh, hc]
      split_ifs <;> omega

theorem Sys.exec_range (count : Int) (h1 : 1 ≤ count) (ops : List Op) :
    ∀ s : Sys, s.dev.count = count → s.dev.halfCount = Int.tdiv count 2 →
      -1 ≤ s.dev.current → s.dev.current ≤ count - 1 →
      (s.exec ops).dev.count = count ∧ -1 ≤ (s.exec ops).dev.current ∧
        (s.exec ops).dev.current ≤ count - 1 := by
  induction ops with
  | nil => intro s hc _ hl hu; exact ⟨hc, hl, hu⟩
  | cons op ops ih =>
    intro s hc hh hl hu
    obtain ⟨a, b, c, d⟩ := Sys.step_range count h1 s op hc hh hl hu
    exact ih (s.step op) a b c d

theorem Sys.step_reset_out (s : Sys) : (s.step Op.reset).out = Level.LOW := by
  simp [Sys.out, Sys.step, Op.method, MyDivision.reset, Board.run, Board.apply]

theorem Sys.step_begin_out (s : Sys) : (s.step Op.begin).out = Level.LOW := by
  simp [Sys.out, Sys.step, Op.method, MyDivision.begin, MyDivision.reset, Board.run, Board.apply]

theorem Sys.good_of_reset (count : Int) (h2 : 2 ≤ count) (s : Sys) (hc : s.dev.count = count)
    (hh : s.dev.halfCount = Int.tdiv count 2) :
    Sys.Good count (s.step Op.reset) false ∧ Sys.Good count (s.step Op.begin) false := by
  refine ⟨⟨hc, hh, le_refl _, ?_, ?_, ?_⟩, ⟨hc, hh, le_refl _, ?_, ?_, ?_⟩⟩
  · show (-1 : Int) ≤ count - 1
    omega
  · intro h
    cases h
  · rw [Sys.step_reset_out]
    simp
  · show (-1 : Int) ≤ count - 1
    omega
  · intro h
    cases h
  · rw [Sys.step_begin_out]
    simp

theorem Sys.good_of_next (count : Int) (h2 : 2 ≤ count) (s : Sys) (f : Bool)
    (hg : Sys.Good count s f) : Sys.Good count (s.step Op.next) (f || s.dev.rewinds) := by
  obtain ⟨hc, hh, hl, hu, hf, ho⟩ := hg
  obtain ⟨hb1, hb2, -⟩ := half_bounds count s.dev.halfCount h2 hh
  have e1 : (s.step Op.next).dev.current = _ := MyDivision.next_current s.dev
  have e2 : (s.step Op.next).dev.halfCount = s.dev.halfCount := MyDivision.next_halfCount s.dev
  have e3 : (s.step Op.next).dev.count = s.dev.count := MyDivision.next_count s.dev
  have e4 := Sys.step_next_out s
  refine ⟨by rw [e3, hc], by rw [e2, hh], ?_, ?_, ?_, ?_⟩
  · rw [e1]
    split_ifs <;> omega
  · rw [e1, hc]
    split_ifs <;> omega
  · intro hf2
    rw [e1]
    split_ifs <;> omega
  · rw [e4, e1, e2, ho]
    unfold MyDivision.rewinds
    rw [hc] at *
    by_cases h1 : s.dev.current + 1 = s.dev.halfCount
    · have : ¬ (s.dev.current + 1 < s.dev.halfCount) := by omega
      simp [h1]
    · by_cases h3 : s.dev.current + 1 = count
      · have : (0 : Int) < s.dev.halfCount := by omega
        have hne : ¬ count = s.dev.halfCount := by omega
        simp [h3, this, hne]
      · cases f with
        | false => simp [h1, h3]
        | true =>
          have h0 := hf rfl
          have : s.dev.current < s.dev.halfCount ↔ s.dev.current + 1 < s.dev.halfCount := by
            omega
          simp [h1, h3, this]

theorem Sys.exec_good (count : Int) (h2 : 2 ≤ count) (ops : List Op) :
    ∀ (s : Sys) (f : Bool), Sys.Good count s f → Sys.Good count (s.exec ops) (s.rewound ops f) := by
  induction ops with
  | nil => intro s f hg; exact hg
  | cons op ops ih =>
    intro s f hg
    cases op with
    | begin => exact ih _ _ (Sys.good_of_reset count h2 s hg.1 hg.2.1).2
    | reset => exact ih _ _ (Sys.good_of_reset count h2 s hg.1 hg.2.1).1
    | next => exact ih _ _ (Sys.good_of_next count h2 s f hg)

/-! ## The claims about the divider -/

/-- C1: from the state a rewind leaves (current = 0, own pin HIGH) and for every
count >= 2, call number k of the next count calls of next() writes LOW when
k = halfCount, HIGH when k = count and nothing otherwise, the two calls being
distinct; after the count calls the system is back in the state it started in; in
between the pin is HIGH after fewer than halfCount calls and LOW from then on,
that is HIGH for halfCount and LOW for count - halfCount of the count pulses, and
the two numbers are equal when count is even. -/
theorem C1_steady_cycle (s : Sys) (hc : 2 ≤ s.dev.count)
    (hh : s.dev.halfCount = Int.tdiv s.dev.count 2) (h0 : s.dev.current = 0)
    (hp : s.out = Level.HIGH) :
    (∀ k : Nat, 1 ≤ k → (k : Int) ≤ s.dev.count →
      s.callsOfNext k =
        if (k : Int) = s.dev.halfCount then [HalCall.digitalWrite s.dev.pin Level.LOW]
        else if (k : Int) = s.dev.count then [HalCall.digitalWrite s.dev.pin Level.HIGH]
        else []) ∧
    (1 ≤ s.dev.halfCount ∧ s.dev.halfCount < s.dev.count) ∧
    s.nextN s.dev.count.toNat = s ∧
    (∀ k : Nat, (k : Int) < s.dev.count →
      (s.nextN k).out = if (k : Int) < s.dev.halfCount then Level.HIGH else Level.LOW) ∧
    s.pulsesAt Level.HIGH s.dev.count.toNat = s.dev.halfCount.toNat ∧
    s.pulsesAt Level.LOW s.dev.count.toNat = (s.dev.count - s.dev.halfCount).toNat ∧
    (s.dev.count % 2 = 0 → 2 * s.dev.halfCount = s.dev.count) :=
  Sys.steady_cycle s hc hh h0 hp

/-- C1 at divisor 4: LOW is written on call 2, HIGH on call 4, nothing on calls 1
and 3, and the four calls lead back to the starting state. -/
theorem C1_steady_cycle_witness :
    sysFour.callsOfNext 1 = [] ∧
    sysFour.callsOfNext 2 = [HalCall.digitalWrite 9 Level.LOW] ∧
    sysFour.callsOfNext 3 = [] ∧
    sysFour.callsOfNext 4 = [HalCall.digitalWrite 9 Level.HIGH] ∧
    sysFour.nextN 4 = sysFour ∧
    sysFour.pulsesAt Level.HIGH 4 = 2 ∧ sysFour.pulsesAt Level.LOW 4 = 2 := by
  have h := C1_steady_cycle sysFour (by decide) (by decide) (by decide) (by decide)
  obtain ⟨h1, -, h3, -, h5, h6, -⟩ := h
  exact ⟨h1 1 (by decide) (by decide), h1 2 (by decide) (by decide),
    h1 3 (by decide) (by decide), h1 4 (by decide) (by decide), h3, h5, h6⟩

/-- C2, as stated, fails for divisor 8: started at current = -1 with the pin LOW,
the first 4 calls of next() write nothing and the first 8 calls write no HIGH and
leave current = 7. -/
theorem C2_counterexample :
    sysEight.dev.count = 8 ∧ sysEight.dev.current = -1 ∧ sysEight.out = Level.LOW ∧
    sysEight.writesWithin Level.LOW 4 = 0 ∧
    sysEight.writesWithin Level.HIGH 8 = 0 ∧
    (sysEight.nextN 8).dev.current = 7 ∧
    ¬ (sysEight.writesWithin Level.LOW 4 = 1 ∧ sysEight.writesWithin Level.HIGH 8 = 1 ∧
        (sysEight.nextN 8).dev.current = 0) := by
  decide

/-- C2 amended: for divisor 8 started at current = -1 with the pin LOW, the first 5
calls of next() write LOW exactly once, on call 5, which makes current 4, and the
first 9 calls write HIGH exactly once, on call 9, which leaves current 0. -/
theorem C2_first_cycle_of_eight (pin : Int) (b : Board) :
    (afterReset pin 8 b).dev.current = -1 ∧ (afterReset pin 8 b).out = Level.LOW ∧
    (afterReset pin 8 b).writesWithin Level.LOW 5 = 1 ∧
    (afterReset pin 8 b).writesWithin Level.LOW 4 = 0 ∧
    (afterReset pin 8 b).callsOfNext 5 = [HalCall.digitalWrite pin Level.LOW] ∧
    ((afterReset pin 8 b).nextN 5).dev.current = 4 ∧
    (afterReset pin 8 b).writesWithin Level.HIGH 9 = 1 ∧
    (afterReset pin 8 b).writesWithin Level.HIGH 8 = 0 ∧
    (afterReset pin 8 b).callsOfNext 9 = [HalCall.digitalWrite pin Level.HIGH] ∧
    ((afterReset pin 8 b).nextN 9).dev.current = 0 := by
  have h8 : Int.tdiv 8 2 = 4 := by decide
  have hk := calls_of_eight pin b
  refine ⟨rfl, afterReset_out pin 8 b, ?_, ?_, ?_, ?_, ?_, ?_, ?_, ?_⟩
  · unfold Sys.writesWithin
    simp [List.range_succ, hk, HalCall.isWrite, afterReset_dev]
  · unfold Sys.writesWithin
    simp [List.range_succ, hk, HalCall.isWrite, afterReset_dev]
  · rw [hk 5 (by decide) (by decide)]
    rfl
  · rw [Sys.nextN_current_below _ _ (by rw [afterReset_dev]; show (-1 : Int) + ((5 : Nat) : Int) < 8; omega), afterReset_dev]
    rfl
  · unfold Sys.writesWithin
    simp [List.range_succ, hk, HalCall.isWrite, afterReset_dev]
  · unfold Sys.writesWithin
    simp [List.range_succ, hk, HalCall.isWrite, afterReset_dev]
  · rw [hk 9 (by decide) (by decide)]
    rfl
  · exact Sys.nextN_current_rewind _ 9 (by decide) (by rw [afterReset_dev]; rfl)
      (by rw [afterReset_dev]; simp only [h8]; decide)

/-- C3, as stated, fails in its last part: with divisor 7 the seven pulses of a
cycle see the pin HIGH 3 times and LOW 4 times, from the rewind and from every
later pulse of the cycle alike, not LOW 3 times and HIGH 4 times. -/
theorem C3_counterexample :
    sysSeven.dev.count = 7 ∧ sysSeven.dev.halfCount = 3 ∧
    sysSeven.pulsesAt Level.LOW 7 = 4 ∧ sysSeven.pulsesAt Level.HIGH 7 = 3 ∧
    (∀ j ∈ List.range 7, (sysSeven.nextN j).pulsesAt Level.LOW 7 = 4 ∧
      (sysSeven.nextN j).pulsesAt Level.HIGH 7 = 3) ∧
    ¬ (sysSeven.pulsesAt Level.LOW 7 = 3 ∧ sysSeven.pulsesAt Level.HIGH 7 = 4) := by
  decide

/-- C3 amended: with divisor 7 the constructor sets halfCount = 3; next() writes LOW
exactly when the incremented current is 3, and writes HIGH with current back at 0
exactly when it is 7; a cycle started by a rewind returns to its starting state
after 7 calls, with the pin HIGH for 3 of the 7 pulses and LOW for 4. -/
theorem C3_divide_by_seven (pin c : Int) (b : Board) :
    (MyDivision.new pin 7).halfCount = 3 ∧
    (HalCall.digitalWrite pin Level.LOW ∈ ({ MyDivision.new pin 7 with current := c }).next.2
      ↔ c + 1 = 3) ∧
    (HalCall.digitalWrite pin Level.HIGH ∈ ({ MyDivision.new pin 7 with current := c }).next.2
      ↔ c + 1 = 7) ∧
    (({ MyDivision.new pin 7 with current := c }).next.2 = [HalCall.digitalWrite pin Level.HIGH] ∧
        ({ MyDivision.new pin 7 with current := c }).next.1.current = 0
      ↔ c + 1 = 7) ∧
    (afterRewind pin 7 b).nextN 7 = afterRewind pin 7 b ∧
    (afterRewind pin 7 b).pulsesAt Level.HIGH 7 = 3 ∧
    (afterRewind pin 7 b).pulsesAt Level.LOW 7 = 4 := by
  have h7 : Int.tdiv 7 2 = 3 := by decide
  have hs := Sys.steady_cycle (afterRewind pin 7 b)
    (by rw [afterRewind_dev]; show (2 : Int) ≤ 7; decide)
    (by rw [afterRewind_dev]) (by rw [afterRewind_dev]) (afterRewind_out pin 7 b)
  obtain ⟨-, -, h3, -, h5, h6, -⟩ := hs
  have hd : ({ MyDivision.new pin 7 with current := c } : MyDivision) =
      { count := 7, current := c, pin := pin, halfCount := 3 } := by
    simp only [MyDivision.new, h7]
  refine ⟨h7, ?_, ?_, ?_, h3, ?_, ?_⟩
  · rw [hd, MyDivision.next_calls]
    dsimp only
    split_ifs with h1 h2
    · simp [h1]
    · simp [h1]
    · simp [h1]
  · rw [hd, MyDivision.next_calls]
    dsimp only
    split_ifs with h1 h2
    · simp; omega
    · simp [h2]
    · simp [h2]
  · rw [hd, MyDivision.next_calls, MyDivision.next_current]
    dsimp only
    split_ifs with h1 h2
    · simp; omega
    · simp [h2]
    · simp [h2]
  · rw [afterRewind_dev, h7] at h5
    exact h5
  · rw [afterRewind_dev, h7] at h6
    exact h6

/-- C4: from every state, reset() leaves current = -1 and the own pin LOW, and a
next() called directly afterwards leaves current = 0. -/
theorem C4_reset_then_next (s : Sys) :
    (s.step Op.reset).dev.current = -1 ∧ (s.step Op.reset).out = Level.LOW ∧
    ((s.step Op.reset).step Op.next).dev.current = 0 := by
  refine ⟨rfl, ?_, ?_⟩
  · simp [Sys.out, Sys.step, Op.method, MyDivision.reset, Board.run, Board.apply]
  · show ((s.step Op.reset).dev.next).1.current = 0
    rw [MyDivision.next_current]
    have h : (s.step Op.reset).dev.current = -1 := rfl
    rw [h]
    split_ifs <;> rfl

/-- C5: reset() twice leaves the same object and the same level on every pin as
reset() once. -/
theorem C5_reset_idempotent (s : Sys) :
    (s.step Op.reset).step Op.reset = s.step Op.reset := by
  apply Sys.ext_fields
  · rfl
  · funext p
    simp only [Sys.step, Op.method, MyDivision.reset, Board.run, Board.apply]
    split_ifs <;> rfl

/-- C8: begin() makes exactly the calls pinMode(pin, OUTPUT), digitalWrite(pin, HIGH),
delay(2), digitalWrite(pin, LOW), in this order; reset() makes exactly the last
three; every pin either of them addresses is the own pin, and the level of every
other pin is left as it was. -/
theorem C8_begin_reset_calls (d : MyDivision) (b : Board) :
    d.begin.2 = [HalCall.pinMode d.pin PinMode.OUTPUT, HalCall.digitalWrite d.pin Level.HIGH,
      HalCall.delay 2, HalCall.digitalWrite d.pin Level.LOW] ∧
    d.reset.2 = [HalCall.digitalWrite d.pin Level.HIGH, HalCall.delay 2,
      HalCall.digitalWrite d.pin Level.LOW] ∧
    (∀ c ∈ d.begin.2 ++ d.reset.2, c.pin? = none ∨ c.pin? = some d.pin) ∧
    (∀ p : Int, p ≠ d.pin → (b.run d.begin.2) p = b p ∧ (b.run d.reset.2) p = b p) := by
  refine ⟨rfl, rfl, ?_, ?_⟩
  · intro c hc
    simp only [MyDivision.begin, MyDivision.reset, List.mem_append, List.mem_cons,
      List.mem_singleton, List.not_mem_nil, or_false] at hc
    rcases hc with (h | h | h | h) | h | h | h <;> subst h <;> simp [HalCall.pin?]
  · intro p hp
    simp [MyDivision.begin, MyDivision.reset, Board.run, Board.apply, hp]

/-- C6: for every divisor count >= 1 that fits a w-bit int, every state reached from
the constructor by any sequence of begin(), reset() and next() has
-1 <= current <= count - 1; so current < count when next() starts, and current + 1
is at most the largest int: the w-bit increment gives current + 1, without wrapping. -/
theorem C6_current_range (w : Nat) (pin count : Int) (b : Board) (ops : List Op)
    (h1 : 1 ≤ count) (h2 : count ≤ intMax w) :
    -1 ≤ ((Sys.mk (MyDivision.new pin count) b).exec ops).dev.current ∧
    ((Sys.mk (MyDivision.new pin count) b).exec ops).dev.current ≤ count - 1 ∧
    ((Sys.mk (MyDivision.new pin count) b).exec ops).dev.current <
      ((Sys.mk (MyDivision.new pin count) b).exec ops).dev.count ∧
    ((Sys.mk (MyDivision.new pin count) b).exec ops).dev.current + 1 ≤ intMax w ∧
    wrapInt w (((Sys.mk (MyDivision.new pin count) b).exec ops).dev.current + 1) =
      ((Sys.mk (MyDivision.new pin count) b).exec ops).dev.current + 1 := by
  obtain ⟨hc, hl, hu⟩ := Sys.exec_range count h1 ops (Sys.mk (MyDivision.new pin count) b)
    rfl rfl (le_refl _) (by show (-1 : Int) ≤ count - 1; omega)
  have hw : 1 ≤ w := by
    rcases Nat.eq_zero_or_pos w with h0 | h0
    · subst h0
      have : intMax 0 = 0 := by decide
      omega
    · exact h0
  unfold intMax at h2
  refine ⟨hl, hu, by rw [hc]; omega, by unfold intMax; omega, ?_⟩
  have hpos : (0 : Int) < 2 ^ (w - 1) := by positivity
  exact wrapInt_eq_self w _ hw (by omega) (by omega)

/-- C6 for a 16-bit int and divisor 3, after begin(), four next(), a reset() and
one more next(). -/
theorem C6_current_range_witness :
    (1 : Int) ≤ 3 ∧ (3 : Int) ≤ intMax 16 ∧
    -1 ≤ ((Sys.mk (MyDivision.new 9 3) (fun _ => Level.LOW)).exec
      [Op.begin, Op.next, Op.next, Op.next, Op.next, Op.reset, Op.next]).dev.current ∧
    ((Sys.mk (MyDivision.new 9 3) (fun _ => Level.LOW)).exec
      [Op.begin, Op.next, Op.next, Op.next, Op.next, Op.reset, Op.next]).dev.current ≤ 3 - 1 ∧
    wrapInt 16 (((Sys.mk (MyDivision.new 9 3) (fun _ => Level.LOW)).exec
      [Op.begin, Op.next, Op.next, Op.next, Op.next, Op.reset, Op.next]).dev.current + 1) =
      ((Sys.mk (MyDivision.new 9 3) (fun _ => Level.LOW)).exec
        [Op.begin, Op.next, Op.next, Op.next, Op.next, Op.reset, Op.next]).dev.current + 1 := by
  have h := C6_current_range 16 9 3 (fun _ => Level.LOW)
    [Op.begin, Op.next, Op.next, Op.next, Op.next, Op.reset, Op.next] (by decide) (by decide)
  exact ⟨by decide, by decide, h.1, h.2.1, h.2.2.2.2⟩

/-- C7, as stated, fails for divisor 2: after begin(), one next() and three next()
both leave current = 0, the first with the pin LOW, the second with the pin HIGH. -/
theorem C7_counterexample :
    (sysTwo.exec [Op.next]).dev.current = 0 ∧
    (sysTwo.exec [Op.next, Op.next, Op.next]).dev.current = 0 ∧
    (sysTwo.exec [Op.next]).out = Level.LOW ∧
    (sysTwo.exec [Op.next, Op.next, Op.next]).out = Level.HIGH ∧
    ¬ ((sysTwo.exec [Op.next]).dev.current = (sysTwo.exec [Op.next, Op.next, Op.next]).dev.current →
        (sysTwo.exec [Op.next]).out = (sysTwo.exec [Op.next, Op.next, Op.next]).out) := by
  decide

/-- C7 amended: for every divisor count >= 2, in every state reached from begin() by
next(), reset() and begin() calls the own pin is HIGH exactly when a next() has
rewound the counter since the last reset and current < halfCount, and LOW
otherwise; so two such states with the same current that also agree on whether a
rewind has happened since the last reset have the same pin level. -/
theorem C7_level_from_current_and_phase (pin count : Int) (b : Board) (ops1 ops2 : List Op)
    (hc : 2 ≤ count) :
    (((afterBegin pin count b).exec ops1).out =
      if (afterBegin pin count b).rewound ops1 false = true ∧
          ((afterBegin pin count b).exec ops1).dev.current <
            ((afterBegin pin count b).exec ops1).dev.halfCount
      then Level.HIGH else Level.LOW) ∧
    ((afterBegin pin count b).rewound ops1 false = (afterBegin pin count b).rewound ops2 false →
      ((afterBegin pin count b).exec ops1).dev.current =
        ((afterBegin pin count b).exec ops2).dev.current →
      ((afterBegin pin count b).exec ops1).out = ((afterBegin pin count b).exec ops2).out) := by
  have h0 : Sys.Good count (afterBegin pin count b) false :=
    (Sys.good_of_reset count hc (Sys.mk (MyDivision.new pin count) b) rfl rfl).2
  have g1 := Sys.exec_good count hc ops1 _ _ h0
  have g2 := Sys.exec_good count hc ops2 _ _ h0
  refine ⟨g1.2.2.2.2.2, ?_⟩
  intro hf hcur
  rw [g1.2.2.2.2.2, g2.2.2.2.2.2, hf, hcur, g1.2.1, g2.2.1]

/-- C7 amended, for divisor 2: three and five next() after begin() both leave
current = 0 after a rewind, and both leave the pin HIGH. -/
theorem C7_level_from_current_and_phase_witness :
    (2 : Int) ≤ 2 ∧
    (sysTwo.exec [Op.next, Op.next, Op.next]).out =
      (sysTwo.exec [Op.next, Op.next, Op.next, Op.next, Op.next]).out :=
  ⟨by decide,
    (C7_level_from_current_and_phase 9 2 (fun _ => Level.HIGH) [Op.next, Op.next, Op.next]
      [Op.next, Op.next, Op.next, Op.next, Op.next] (by decide)).2 (by decide) (by decide)⟩

/-! ## Basic facts about the button array -/

theorem subU_self (w a : Nat) : subU w a a = 0 := by
  unfold subU
  have h : a % 2 ^ w < 2 ^ w := Nat.mod_lt _ (by positivity)
  rw [show a % 2 ^ w + (2 ^ w - a % 2 ^ w) = 2 ^ w from by omega]
  exact Nat.mod_self _

theorem subU_mod_mod (w a b : Nat) : subU w (a % 2 ^ w) (b % 2 ^ w) = subU w a b := by
  unfold subU
  rw [Nat.mod_mod, Nat.mod_mod]

/-- One call of `on()` on a single button, with the clock steady during the call. -/
theorem on_single (w p a b T d r t cb : Nat) (lv : Nat → Level) :
    MyButtons.on w (Tick.steady lv t) (single p a b T d r cb) =
      if subU w (t % 2 ^ w) (if inverted (lv p) ≠ a then t % 2 ^ w else T) > d ∧
          inverted (lv p) ≠ b then
        { ret := true
          st := single p a (inverted (lv p)) (if inverted (lv p) ≠ a then t % 2 ^ w else T) d
            (inverted (lv p)) cb
          handled := handlerCalls 0 (inverted (lv p)) }
      else
        { ret := false
          st := single p (inverted (lv p)) b (if inverted (lv p) ≠ a then t % 2 ^ w else T) d
            (inverted (lv p)) cb
          handled := [] } := by
  simp only [single, MyButtons.on, MyButtons.onFrom, Tick.steady, Tick.millis,
    List.getD_cons_zero, List.set_cons_zero]
  split_ifs <;> simp_all

/-- The first call that sees the press starts the window and reports nothing. -/
theorem on_single_first (cb : Nat) (w p T d r t : Nat) (lv : Nat → Level) (hlv : lv p = Level.LOW) :
    MyButtons.on w (Tick.steady lv t) (single p 0 0 T d r cb) =
      { ret := false, st := single p 1 0 (t % 2 ^ w) d 1 cb, handled := [] } := by
  rw [on_single, hlv]
  simp [inverted, subU_self]

/-- While the window has not elapsed nothing changes. -/
theorem on_single_wait (cb : Nat) (w p T d t : Nat) (lv : Nat → Level) (hlv : lv p = Level.LOW)
    (h : ¬ d < subU w t T) :
    MyButtons.on w (Tick.steady lv t) (single p 1 0 (T % 2 ^ w) d 1 cb) =
      { ret := false, st := single p 1 0 (T % 2 ^ w) d 1 cb, handled := [] } := by
  rw [on_single, hlv]
  simp [inverted, subU_mod_mod, h]

/-- The first call after the window reports the press. -/
theorem on_single_confirm (cb : Nat) (w p T d t : Nat) (lv : Nat → Level) (hlv : lv p = Level.LOW)
    (h : d < subU w t T) :
    MyButtons.on w (Tick.steady lv t) (single p 1 0 (T % 2 ^ w) d 1 cb) =
      { ret := true, st := single p 1 1 (T % 2 ^ w) d 1 cb, handled := [(0, button.PRESSED)] } := by
  rw [on_single, hlv]
  simp [inverted, subU_mod_mod, h, handlerCalls]

/-- Once the press is the stable state, further calls report nothing. -/
theorem on_single_settled (cb : Nat) (w p T d t : Nat) (lv : Nat → Level) (hlv : lv p = Level.LOW) :
    MyButtons.on w (Tick.steady lv t) (single p 1 1 T d 1 cb) =
      { ret := false, st := single p 1 1 T d 1 cb, handled := [] } := by
  rw [on_single, hlv]
  simp [inverted]

theorem poll_settled (cb : Nat) (w p T d : Nat) (lv : Nat → Level) (hlv : lv p = Level.LOW)
    (ts : List Nat) :
    outcomes (MyButtons.poll w (single p 1 1 T d 1 cb) (ticksAt lv ts)) =
      List.replicate ts.length (false, []) := by
  induction ts with
  | nil => rfl
  | cons t ts ih =>
    show outcomes (MyButtons.poll w _ (Tick.steady lv t :: ticksAt lv ts)) = _
    simp only [MyButtons.poll, outcomes, List.map_cons, on_single_settled cb w p T d t lv hlv,
      List.length_cons, List.replicate_succ]
    exact congrArg _ ih

theorem poll_waiting (cb : Nat) (w p T d t : Nat) (lv : Nat → Level) (hlv : lv p = Level.LOW)
    (post : List Nat) (ht : d < subU w t T) (pre : List Nat)
    (hpre : ∀ u ∈ pre, ¬ d < subU w u T) :
    outcomes (MyButtons.poll w (single p 1 0 (T % 2 ^ w) d 1 cb) (ticksAt lv (pre ++ t :: post))) =
      List.replicate pre.length (false, []) ++
        (true, [(0, button.PRESSED)]) :: List.replicate post.length (false, []) := by
  induction pre with
  | nil =>
    show outcomes (MyButtons.poll w _ (Tick.steady lv t :: ticksAt lv post)) = _
    simp only [MyButtons.poll, outcomes, List.map_cons, on_single_confirm cb w p T d t lv hlv ht,
      List.length_nil, List.replicate_zero, List.nil_append]
    exact congrArg _ (poll_settled cb w p (T % 2 ^ w) d lv hlv post)
  | cons u pre ih =>
    have hu := hpre u (List.mem_cons_self _ _)
    show outcomes (MyButtons.poll w _ (Tick.steady lv u :: ticksAt lv (pre ++ t :: post))) = _
    simp only [MyButtons.poll, outcomes, List.map_cons, on_single_wait cb w p T d u lv hlv hu,
      List.length_cons, List.replicate_succ, List.cons_append]
    exact congrArg _ (ih (fun v hv => hpre v (List.mem_cons_of_mem _ hv)))

/-- A list with an element satisfying `P` splits at the first such element. -/
theorem split_at_first (P : Nat → Prop) (ts : List Nat) (h : ∃ t ∈ ts, P t) :
    ∃ pre t post, ts = pre ++ t :: post ∧ (∀ u ∈ pre, ¬ P u) ∧ P t := by
  induction ts with
  | nil =>
    obtain ⟨t, ht, -⟩ := h
    cases ht
  | cons a ts ih =>
    by_cases ha : P a
    · exact ⟨[], a, ts, rfl, ⟨fun u hu => absurd hu (List.not_mem_nil u), ha⟩⟩
    · obtain ⟨t, ht, hP⟩ := h
      have hmem : t ∈ ts := by
        rcases List.mem_cons.mp ht with h1 | h1
        · subst h1
          exact absurd hP ha
        · exact h1
      obtain ⟨pre, t2, post, e, hpre, ht2⟩ := ih ⟨t, hmem, hP⟩
      refine ⟨a :: pre, t2, post, by rw [e]; rfl, ?_, ht2⟩
      intro u hu
      rcases List.mem_cons.mp hu with h1 | h1
      · subst h1
        exact ha
      · exact hpre u h1

/-! ## The claims about the button array -/

/-- C9 evaluated on the code: the constructor sets every stable state to 1, the
value on() reports as PRESSED, so with every pin idle on() returns true and
invokes the handler with RELEASED once the window has elapsed: on the second call
for one button without debounce delay, and on the third and fourth call, once per
button, for two buttons with a delay of 50 ms. -/
theorem C9_spurious_release :
    (MyButtons.new [2, 3] 2 callback 50 (fun _ => 0)).buttonState = [1, 1] ∧
    handlerCalls 0 1 = [(0, button.PRESSED)] ∧
    outcomes (MyButtons.poll 32 (MyButtons.new [2] 1 callback 0 (fun _ => 0)) (ticksAt idle [5, 6])) =
      [(false, []), (true, [(0, button.RELEASED)])] ∧
    outcomes (MyButtons.poll 32 (MyButtons.new [2, 3] 2 callback 50 (fun _ => 0))
        (ticksAt idle [0, 10, 51, 52, 53])) =
      [(false, []), (false, []), (true, [(0, button.RELEASED)]),
        (true, [(1, button.RELEASED)]), (false, [])] := by
  decide

/-- C10, as stated, fails for one button with a delay of 50 ms.  Polled at 0, 100,
200, 240 and 300 ms while the input is pressed from 150 to 290 ms, so for 140 ms,
neither call made during the press (200, 240) invokes the handler or returns true:
the window runs from the first call that sees the press.  And polled at 0 ms
idle, then at 1, 100 and 200 ms pressed, no call reports the press, the stable
state still being the constructed 1. -/
theorem C10_counterexample :
    outcomes (MyButtons.poll 32 (MyButtons.new [2] 1 callback 50 (fun _ => 0))
        (sample (pressedDuring 150 290) [0, 100, 200, 240, 300])) =
      [(false, []), (true, [(0, button.RELEASED)]), (false, []), (false, []), (false, [])] ∧
    outcomes (MyButtons.poll 32 (MyButtons.new [2] 1 callback 50 (fun _ => 0))
        (sample (pressedDuring 1 1000) [0, 1, 100, 200])) =
      [(false, []), (false, []), (false, []), (false, [])] := by
  decide

/-- C10 amended: for a single button whose last raw reading and stable state are
both released (0), polled with the input pressed at the time t1 and then at the
times ts, the clock steady within each call: if at one of the times ts the w-bit
clock difference to t1 exceeds debounceDelay, then the first such call, and no
other, invokes the handler, with (0, PRESSED), and returns true; the call at t1
and every other call, earlier or later, returns false without invoking it. -/
theorem C10_single_press (w p T d r t1 cb : Nat) (lv : Nat → Level) (ts : List Nat)
    (hlv : lv p = Level.LOW) (hex : ∃ t ∈ ts, d < subU w t t1) :
    ∃ pre t post, ts = pre ++ t :: post ∧ (∀ u ∈ pre, ¬ d < subU w u t1) ∧ d < subU w t t1 ∧
      outcomes (MyButtons.poll w (single p 0 0 T d r cb) (ticksAt lv (t1 :: ts))) =
        (false, []) :: (List.replicate pre.length (false, []) ++
          (true, [(0, button.PRESSED)]) :: List.replicate post.length (false, [])) := by
  obtain ⟨pre, t, post, e, hpre, ht⟩ := split_at_first (fun t => d < subU w t t1) ts hex
  refine ⟨pre, t, post, e, hpre, ht, ?_⟩
  show outcomes (MyButtons.poll w _ (Tick.steady lv t1 :: ticksAt lv ts)) = _
  simp only [MyButtons.poll, outcomes, List.map_cons, on_single_first cb w p T d r t1 lv hlv]
  rw [e]
  exact congrArg _ (poll_waiting cb w p t1 d t lv hlv post ht pre hpre)

/-- C10 amended, for a delay of 50 ms and a press polled at 200, 240, 260 and
300 ms: the call at 260 ms is past the window. -/
theorem C10_single_press_witness :
    pressed 2 = Level.LOW ∧ (∃ t ∈ [240, 260, 300], 50 < subU 32 t 200) ∧
    ∃ pre t post, [240, 260, 300] = pre ++ t :: post ∧ (∀ u ∈ pre, ¬ 50 < subU 32 u 200) ∧
      50 < subU 32 t 200 ∧
      outcomes (MyButtons.poll 32 (single 2 0 0 0 50 0 callback) (ticksAt pressed [200, 240, 260, 300])) =
        (false, []) :: (List.replicate pre.length (false, []) ++
          (true, [(0, button.PRESSED)]) :: List.replicate post.length (false, [])) :=
  ⟨rfl, ⟨260, by decide, by decide⟩,
    C10_single_press 32 2 0 50 0 200 callback pressed [240, 260, 300] rfl ⟨260, by decide, by decide⟩⟩

/-! ## More facts about the divider -/

/-- Inside `0 .. count - 1` a `next()` advances the counter modulo `count`. -/
theorem MyDivision.next_current_mod (d : MyDivision) (h0 : 0 ≤ d.current)
    (h1 : d.current < d.count) (hh : d.halfCount < d.count) :
    d.next.1.current = (d.current + 1) % d.count := by
  rw [MyDivision.next_current]
  by_cases hc : d.current + 1 = d.count
  · rw [if_neg (by omega), if_pos hc, hc, Int.emod_self]
  · have hlt : d.current + 1 < d.count := by omega
    rw [Int.emod_eq_of_lt (by omega) hlt]
    split_ifs <;> rfl

theorem tdiv_two_lt (count : Int) (h1 : 1 ≤ count) :
    0 ≤ Int.tdiv count 2 ∧ Int.tdiv count 2 < count := by
  rw [Int.tdiv_eq_ediv (by omega) (by decide)]
  omega

/-- After a reset, call number `n + 1` leaves the counter at `n` modulo `count`. -/
theorem afterReset_current (pin count : Int) (b : Board) (h1 : 1 ≤ count) (n : Nat) :
    ((afterReset pin count b).nextN (n + 1)).dev.current = (n : Int) % count := by
  have hh := tdiv_two_lt count h1
  induction n with
  | zero =>
    show ((afterReset pin count b).dev.next).1.current = _
    rw [MyDivision.next_current, afterReset_dev]
    dsimp only
    rw [Int.emod_eq_of_lt (by decide) (by omega)]
    split_ifs <;> rfl
  | succ n ih =>
    rw [Sys.nextN_succ_right]
    obtain ⟨hc, hhalf, -⟩ := Sys.nextN_fields (afterReset pin count b) (n + 1)
    rw [afterReset_dev] at hc hhalf
    dsimp only at hc hhalf
    show (((afterReset pin count b).nextN (n + 1)).dev.next).1.current = _
    have hr1 := Int.emod_nonneg (n : Int) (show count ≠ 0 by omega)
    have hr2 := Int.emod_lt_of_pos (n : Int) (show 0 < count by omega)
    rw [MyDivision.next_current_mod _ (by rw [ih]; exact hr1) (by rw [ih, hc]; exact hr2)
      (by rw [hhalf, hc]; exact hh.2), ih, hc]
    push_cast
    rw [Int.emod_add_emod]

/-- The calls of call number `k + 2` after a reset. -/
theorem afterReset_calls (pin count : Int) (b : Board) (h1 : 1 ≤ count) (k : Nat) :
    (afterReset pin count b).callsOfNext (k + 2) =
      if (k : Int) % count + 1 = Int.tdiv count 2 then [HalCall.digitalWrite pin Level.LOW]
      else if (k : Int) % count + 1 = count then [HalCall.digitalWrite pin Level.HIGH]
      else [] := by
  obtain ⟨hc, hhalf, hp⟩ := Sys.nextN_fields (afterReset pin count b) (k + 1)
  rw [afterReset_dev] at hc hhalf hp
  dsimp only at hc hhalf hp
  unfold Sys.callsOfNext
  rw [show k + 2 - 1 = k + 1 from rfl, MyDivision.next_calls, afterReset_current pin count b h1 k,
    hc, hhalf, hp]

/-- The remainder reaches `count - 1` exactly before the multiples of `count`. -/
theorem emod_succ_eq_zero (count : Int) (h1 : 1 ≤ count) (k : Nat) :
    (k : Int) % count + 1 = count ↔ ∃ m : Nat, 1 ≤ m ∧ ((k : Int) + 2) = m * count + 1 := by
  have hr1 := Int.emod_nonneg (k : Int) (show count ≠ 0 by omega)
  have hr2 := Int.emod_lt_of_pos (k : Int) (show 0 < count by omega)
  have hdiv := Int.emod_add_ediv (k : Int) count
  have hq : 0 ≤ (k : Int) / count := Int.ediv_nonneg (by omega) (by omega)
  constructor
  · intro h
    refine ⟨((k : Int) / count + 1).toNat, by omega, ?_⟩
    rw [Int.toNat_of_nonneg (by omega)]
    have : ((k : Int) / count + 1) * count = count * ((k : Int) / count) + count := by ring
    rw [this]
    omega
  · rintro ⟨m, hm, e⟩
    have e2 : (k : Int) = (count - 1) + (m - 1 : Int) * count := by
      have : (m - 1 : Int) * count = m * count - count := by ring
      rw [this]
      omega
    have : (k : Int) % count = count - 1 := by
      rw [e2, Int.add_mul_emod_self, Int.emod_eq_of_lt (by omega) (by omega)]
    omega

/-! ## More claims about the divider -/

/-- Where `current + 1` is an `int`, the wrapping `next()` is the unbounded one. -/
theorem MyDivision.nextW_eq_next (w : Nat) (d : MyDivision)
    (h : wrapInt w (d.current + 1) = d.current + 1) : d.nextW w = d.next := by
  unfold MyDivision.nextW MyDivision.next
  rw [h]

/-- The calls of the wrapping `next()`, read off the three branches. -/
theorem MyDivision.nextW_calls (w : Nat) (d : MyDivision) :
    (d.nextW w).2 =
      if wrapInt w (d.current + 1) = d.halfCount then [HalCall.digitalWrite d.pin Level.LOW]
      else if wrapInt w (d.current + 1) = d.count then [HalCall.digitalWrite d.pin Level.HIGH]
      else [] := by
  unfold MyDivision.nextW
  dsimp only
  split_ifs <;> rfl

/-- At the largest 16-bit `int` the increment wraps: `current` becomes -32768, and
with `count = -32768` the wrapped value takes the rewind branch, where the
unbounded `next()` would go on to 32768. -/
theorem MyDivision.nextW_wraps :
    (MyDivision.nextW 16 { count := 5, current := 32767, pin := 9, halfCount := 2 }).1.current =
      -32768 ∧
    MyDivision.nextW 16 (MyDivision.mk (-32768) 32767 9 (-16384)) =
      (MyDivision.mk (-32768) 0 9 (-16384), [HalCall.digitalWrite 9 Level.HIGH]) ∧
    (MyDivision.next (MyDivision.mk (-32768) 32767 9 (-16384))).1.current = 32768 := by
  decide

/-- C16: for every divider state, next() sets c to the int increment of current,
then writes LOW and leaves current = c when c = halfCount; otherwise writes HIGH
and sets current = 0 when c = count; otherwise writes nothing and leaves
current = c.  Whenever current is an int below the largest one, c = current + 1.
With halfCount = count HIGH is never written, the LOW branch running at
c = count.  count, halfCount and pin are never changed, and at most one call is
made, a write to the own pin. -/
theorem C16_next_branches (w : Nat) (d : MyDivision) :
    d.nextW w =
      (if wrapInt w (d.current + 1) = d.halfCount then
        ({ d with current := wrapInt w (d.current + 1) },
          [HalCall.digitalWrite d.pin Level.LOW])
      else if wrapInt w (d.current + 1) = d.count then
        ({ d with current := 0 }, [HalCall.digitalWrite d.pin Level.HIGH])
      else ({ d with current := wrapInt w (d.current + 1) }, [])) ∧
    (1 ≤ w → -(2 ^ (w - 1)) ≤ d.current → d.current < intMax w →
      wrapInt w (d.current + 1) = d.current + 1 ∧
      d.nextW w = d.next ∧
      d.nextW w =
        (if d.current + 1 = d.halfCount then
          ({ d with current := d.current + 1 }, [HalCall.digitalWrite d.pin Level.LOW])
        else if d.current + 1 = d.count then
          ({ d with current := 0 }, [HalCall.digitalWrite d.pin Level.HIGH])
        else ({ d with current := d.current + 1 }, []))) ∧
    (d.halfCount = d.count → HalCall.digitalWrite d.pin Level.HIGH ∉ (d.nextW w).2) ∧
    (d.halfCount = d.count → wrapInt w (d.current + 1) = d.count →
      d.nextW w = ({ d with current := wrapInt w (d.current + 1) },
        [HalCall.digitalWrite d.pin Level.LOW])) ∧
    (d.nextW w).1.count = d.count ∧ (d.nextW w).1.halfCount = d.halfCount ∧
    (d.nextW w).1.pin = d.pin ∧
    (d.nextW w).2.length ≤ 1 ∧
    (∀ c ∈ (d.nextW w).2, c = HalCall.digitalWrite d.pin Level.LOW ∨
      c = HalCall.digitalWrite d.pin Level.HIGH) := by
  refine ⟨rfl, ?_, ?_, ?_, ?_, ?_, ?_, ?_, ?_⟩
  · intro hw hl hu
    have hwrap : wrapInt w (d.current + 1) = d.current + 1 := by
      unfold intMax at hu
      have hpos : (0 : Int) < 2 ^ (w - 1) := by positivity
      exact wrapInt_eq_self w _ hw (by omega) (by omega)
    exact ⟨hwrap, MyDivision.nextW_eq_next w d hwrap,
      (MyDivision.nextW_eq_next w d hwrap).trans rfl⟩
  · intro hh
    rw [MyDivision.nextW_calls]
    split_ifs with h1 h2
    · simp
    · exact absurd (h2.trans hh.symm) h1
    · simp
  · intro hh hc
    unfold MyDivision.nextW
    dsimp only
    rw [if_pos (hc.trans hh.symm)]
  · unfold MyDivision.nextW
    dsimp only
    split_ifs <;> rfl
  · unfold MyDivision.nextW
    dsimp only
    split_ifs <;> rfl
  · unfold MyDivision.nextW
    dsimp only
    split_ifs <;> rfl
  · rw [MyDivision.nextW_calls]
    split_ifs <;> simp
  · rw [MyDivision.nextW_calls]
    split_ifs <;> simp

/-- C16 for a 16-bit int, divisor 8 and current = 3: the increment gives 4 without
wrapping, which is halfCount, so LOW is written and current becomes 4. -/
theorem C16_next_branches_witness :
    1 ≤ 16 ∧ -(2 ^ (16 - 1)) ≤ divEight.current ∧ divEight.current < intMax 16 ∧
    wrapInt 16 (divEight.current + 1) = divEight.current + 1 ∧
    divEight.nextW 16 = divEight.next ∧
    divEight.nextW 16 =
      ({ count := 8, current := 4, pin := 9, halfCount := 4 },
        [HalCall.digitalWrite 9 Level.LOW]) := by
  have h := (C16_next_branches 16 divEight).2.1 (by decide) (by decide) (by decide)
  exact ⟨by decide, by decide, by decide, h.1, h.2.1, by decide⟩

/-- C18: for every divisor count >= 1, counting the calls of next() from a reset,
call k leaves current = k - 1 for 1 <= k <= count; the first LOW is written by call
halfCount + 1, the calls before it writing nothing; and HIGH is written by exactly
the calls m * count + 1 with m >= 1, so first by call count + 1 and then every
count calls. -/
theorem C18_first_cycle_longer (pin count : Int) (b : Board) (h1 : 1 ≤ count) :
    (∀ k : Nat, 1 ≤ k → (k : Int) ≤ count →
      ((afterReset pin count b).nextN k).dev.current = (k : Int) - 1) ∧
    (afterReset pin count b).callsOfNext ((Int.tdiv count 2).toNat + 1) =
      [HalCall.digitalWrite pin Level.LOW] ∧
    (∀ k : Nat, 1 ≤ k → (k : Int) ≤ Int.tdiv count 2 →
      (afterReset pin count b).callsOfNext k = []) ∧
    (∀ k : Nat, 1 ≤ k →
      (HalCall.digitalWrite pin Level.HIGH ∈ (afterReset pin count b).callsOfNext k ↔
        ∃ m : Nat, 1 ≤ m ∧ (k : Int) = m * count + 1)) := by
  obtain ⟨hh0, hh1⟩ := tdiv_two_lt count h1
  refine ⟨?_, ?_, ?_, ?_⟩
  · intro k hk1 hk2
    rw [Sys.nextN_current_below _ _ (by rw [afterReset_dev]; show (-1 : Int) + k < count; omega),
      afterReset_dev]
    show (-1 : Int) + k = k - 1
    omega
  · rw [Sys.callsOfNext_below _ _ (by omega)
      (by rw [afterReset_dev]; show (-1 : Int) + ((Int.tdiv count 2).toNat + 1 : Nat) ≤ count
          push_cast; omega), afterReset_dev]
    dsimp only
    rw [if_pos (by push_cast; omega)]
  · intro k hk1 hk2
    rw [Sys.callsOfNext_below _ _ hk1 (by rw [afterReset_dev]; show (-1 : Int) + k ≤ count; omega),
      afterReset_dev]
    dsimp only
    rw [if_neg (by omega), if_neg (by omega)]
  · intro k hk1
    obtain ⟨k, rfl⟩ : ∃ k2 : Nat, k = k2 + 1 := ⟨k - 1, by omega⟩
    cases k with
    | zero =>
      rw [Sys.callsOfNext_below _ _ (by omega)
        (by rw [afterReset_dev]; show (-1 : Int) + ((0 + 1 : Nat) : Int) ≤ count; omega),
        afterReset_dev]
      dsimp only
      constructor
      · intro h
        exfalso
        split_ifs at h with h2 h3
        · simp at h
        · push_cast at h3; omega
        · simp at h
      · rintro ⟨m, hm, e⟩
        exfalso
        have : (1 : Int) * count ≤ m * count :=
          Int.mul_le_mul_of_nonneg_right (by omega) (by omega)
        push_cast at e
        omega
    | succ k =>
      rw [afterReset_calls pin count b h1 k]
      have hr1 := Int.emod_nonneg (k : Int) (show count ≠ 0 by omega)
      have hiff := emod_succ_eq_zero count h1 k
      have e : ((k + 1 + 1 : Nat) : Int) = (k : Int) + 2 := by push_cast; ring
      rw [e, ← hiff]
      constructor
      · intro h
        split_ifs at h with h2 h3
        · simp at h
        · exact h3
        · simp at h
      · intro h
        rw [if_neg (by omega), if_pos h]
        exact List.mem_singleton_self _

/-- C18 for divisor 3 on pin 9: calls 1 to 3 leave current at 0, 1, 2, call 2 writes
the first LOW and call 4 the first HIGH. -/
theorem C18_first_cycle_longer_witness :
    (1 : Int) ≤ 3 ∧
    ((afterReset 9 3 (fun _ => Level.HIGH)).nextN 3).dev.current = 2 ∧
    (afterReset 9 3 (fun _ => Level.HIGH)).callsOfNext 2 = [HalCall.digitalWrite 9 Level.LOW] ∧
    (afterReset 9 3 (fun _ => Level.HIGH)).callsOfNext 1 = [] ∧
    (HalCall.digitalWrite 9 Level.HIGH ∈ (afterReset 9 3 (fun _ => Level.HIGH)).callsOfNext 4 ↔
      ∃ m : Nat, 1 ≤ m ∧ ((4 : Nat) : Int) = m * 3 + 1) := by
  have h := C18_first_cycle_longer 9 3 (fun _ => Level.HIGH) (by decide)
  exact ⟨by decide, h.1 3 (by decide) (by decide), h.2.1, h.2.2.1 1 (by decide) (by decide),
    h.2.2.2 4 (by decide)⟩

/-- C20: for divisor 1 (halfCount 0), counting the calls of next() from a reset, the
first call writes LOW, and every later call writes HIGH, and nothing else, and
leaves current = 0 and the pin HIGH. -/
theorem C20_divide_by_one (pin : Int) (b : Board) (k : Nat) :
    (afterReset pin 1 b).dev.halfCount = 0 ∧
    (afterReset pin 1 b).callsOfNext 1 = [HalCall.digitalWrite pin Level.LOW] ∧
    (afterReset pin 1 b).callsOfNext (k + 2) = [HalCall.digitalWrite pin Level.HIGH] ∧
    ((afterReset pin 1 b).nextN (k + 2)).dev.current = 0 ∧
    ((afterReset pin 1 b).nextN (k + 2)).out = Level.HIGH := by
  have h2 : Int.tdiv 1 2 = 0 := by decide
  have hcalls : (afterReset pin 1 b).callsOfNext (k + 2) =
      [HalCall.digitalWrite pin Level.HIGH] := by
    rw [afterReset_calls pin 1 b (by decide) k, h2, Int.emod_one]
    rfl
  refine ⟨h2, ?_, hcalls, ?_, ?_⟩
  · rw [Sys.callsOfNext_below _ _ (by decide)
      (by rw [afterReset_dev]; show (-1 : Int) + ((1 : Nat) : Int) ≤ 1; decide), afterReset_dev]
    dsimp only
    rw [h2]
    rfl
  · rw [afterReset_current pin 1 b (by decide) (k + 1), Int.emod_one]
  · obtain ⟨hc, hhalf, -⟩ := Sys.nextN_fields (afterReset pin 1 b) (k + 1)
    rw [afterReset_dev] at hc hhalf
    dsimp only at hc hhalf
    rw [Sys.nextN_succ_right, Sys.step_next_out, afterReset_current pin 1 b (by decide) k,
      Int.emod_one, hc, hhalf, h2]
    rfl

/-! ## The loop of `on()` -/

theorem getD_set_self (l : List Nat) (i x d : Nat) (h : i < l.length) :
    (l.set i x).getD i d = x := by
  rw [List.getD_eq_getElem?_getD, List.getElem?_set_self h]
  rfl

theorem getD_set_ne (l : List Nat) (i j x d : Nat) (h : i ≠ j) :
    (l.set i x).getD j d = l.getD j d := by
  rw [List.getD_eq_getElem?_getD, List.getD_eq_getElem?_getD, List.getElem?_set_ne h]

theorem inverted_zero_or_one (l : Level) : inverted l = 0 ∨ inverted l = 1 := by
  cases l
  · exact Or.inr rfl
  · exact Or.inl rfl

/-- The handler is called exactly once for a reading of 0 or 1. -/
theorem handlerCalls_inverted (i : Nat) (l : Level) :
    handlerCalls i (inverted l) = [(i, eventOf l)] := by
  cases l <;> rfl

/-- Inside the array the value read back is the inverted level just stored. -/
theorem MyButtons.readAt_eq (s : MyButtons) (t : Tick) (i : Nat) (h : i < s.reading.length) :
    s.readAt t i = s.input t.digitalRead i :=
  getD_set_self _ _ _ _ h

/-- The value read back is 0 or 1 also outside the array. -/
theorem MyButtons.readAt_zero_or_one (s : MyButtons) (t : Tick) (i : Nat) :
    s.readAt t i = 0 ∨ s.readAt t i = 1 := by
  by_cases h : i < s.reading.length
  · rw [MyButtons.readAt_eq s t i h]
    exact inverted_zero_or_one _
  · left
    unfold MyButtons.readAt
    exact List.getD_eq_default _ _ (by rw [List.length_set]; omega)

theorem handlerCalls_readAt (s : MyButtons) (t : Tick) (i : Nat) :
    (handlerCalls i (s.readAt t i)).length = 1 := by
  rcases MyButtons.readAt_zero_or_one s t i with h | h <;> rw [h] <;> rfl

/-- One iteration of the loop of `on()`: either the call returns true from
iteration `i`, or the loop goes on with `lastButtonState[i]` updated. -/
theorem MyButtons.onFrom_succ (w : Nat) (t : Tick) (k i j : Nat) (s : MyButtons) :
    MyButtons.onFrom w t (k + 1) i j s =
      if s.debounceDelay < subU w (t.millis w (s.clockAt t i j)) (s.timerAt w t i j) ∧
          s.readAt t i ≠ s.buttonState.getD i 0 then
        { ret := true
          st := { s with
            reading := s.reading.set i (s.input t.digitalRead i)
            lastDebounceTime := s.timerAt w t i j
            buttonState := s.buttonState.set i (s.readAt t i) }
          handled := handlerCalls i (s.readAt t i) }
      else
        MyButtons.onFrom w t k (i + 1) (s.clockAt t i j + 1)
          { s with
            reading := s.reading.set i (s.input t.digitalRead i)
            lastDebounceTime := s.timerAt w t i j
            lastButtonState := s.lastButtonState.set i (s.readAt t i) } := by
  rw [MyButtons.onFrom]
  unfold MyButtons.clockAt MyButtons.timerAt MyButtons.readAt MyButtons.input
  by_cases hc : (s.reading.set i (inverted (t.digitalRead (s._btnPins.getD i 0)))).getD i 0 ≠
      s.lastButtonState.getD i 0
  · simp only [hc, if_true, ne_eq, not_false_eq_true, gt_iff_lt]
    split_ifs <;> first | rfl | (exfalso; tauto)
  · simp only [hc, if_false, ne_eq, not_false_eq_true, gt_iff_lt]
    split_ifs <;> first | rfl | (exfalso; tauto)

/-- `on()` changes neither `_num`, the pin list, the delay nor the length of an array. -/
theorem MyButtons.onFrom_fields (w : Nat) (t : Tick) (k : Nat) :
    ∀ (i j : Nat) (s : MyButtons),
      (MyButtons.onFrom w t k i j s).st._num = s._num ∧
      (MyButtons.onFrom w t k i j s).st._btnPins = s._btnPins ∧
      (MyButtons.onFrom w t k i j s).st.debounceDelay = s.debounceDelay ∧
      (MyButtons.onFrom w t k i j s).st.reading.length = s.reading.length ∧
      (MyButtons.onFrom w t k i j s).st.lastButtonState.length = s.lastButtonState.length ∧
      (MyButtons.onFrom w t k i j s).st.buttonState.length = s.buttonState.length := by
  induction k with
  | zero =>
    intro i j s
    exact ⟨rfl, rfl, rfl, rfl, rfl, rfl⟩
  | succ k ih =>
    intro i j s
    rw [MyButtons.onFrom_succ]
    split_ifs
    · exact ⟨rfl, rfl, rfl, List.length_set _ _ _, rfl, List.length_set _ _ _⟩
    · obtain ⟨h1, h2, h3, h4, h5, h6⟩ := ih (i + 1) (s.clockAt t i j + 1)
        { s with
          reading := s.reading.set i (s.input t.digitalRead i)
          lastDebounceTime := s.timerAt w t i j
          lastButtonState := s.lastButtonState.set i (s.readAt t i) }
      exact ⟨h1, h2, h3, h4.trans (List.length_set _ _ _), h5.trans (List.length_set _ _ _), h6⟩

/-- A call that returns true has called the handler once and set one stable
state; a call that returns false has done neither. -/
theorem MyButtons.onFrom_once (w : Nat) (t : Tick) (k : Nat) :
    ∀ (i j : Nat) (s : MyButtons),
      ((MyButtons.onFrom w t k i j s).ret = true →
        (MyButtons.onFrom w t k i j s).handled.length = 1 ∧
        ∃ i0 v, (MyButtons.onFrom w t k i j s).st.buttonState = s.buttonState.set i0 v) ∧
      ((MyButtons.onFrom w t k i j s).ret = false →
        (MyButtons.onFrom w t k i j s).handled = [] ∧
        (MyButtons.onFrom w t k i j s).st.buttonState = s.buttonState) := by
  induction k with
  | zero =>
    intro i j s
    refine ⟨fun h => ?_, fun _ => ⟨rfl, rfl⟩⟩
    cases h
  | succ k ih =>
    intro i j s
    rw [MyButtons.onFrom_succ]
    split_ifs
    · refine ⟨fun _ => ⟨handlerCalls_readAt s t i, i, s.readAt t i, rfl⟩, fun h => ?_⟩
      cases h
    · exact ih (i + 1) (s.clockAt t i j + 1)
        { s with
          reading := s.reading.set i (s.input t.digitalRead i)
          lastDebounceTime := s.timerAt w t i j
          lastButtonState := s.lastButtonState.set i (s.readAt t i) }

/-- The `unsigned long` difference gives back an elapsed time below `2 ^ w`,
whether or not the clock has wrapped in between. -/
theorem subU_add (w t0 d : Nat) (hd : d < 2 ^ w) :
    subU w ((t0 + d) % 2 ^ w) (t0 % 2 ^ w) = d := by
  unfold subU
  rw [Nat.mod_mod, Nat.mod_mod]
  have hM : 0 < 2 ^ w := by positivity
  have ha : t0 % 2 ^ w < 2 ^ w := Nat.mod_lt _ hM
  have e : (t0 + d) % 2 ^ w = (t0 % 2 ^ w + d) % 2 ^ w := by
    rw [Nat.add_mod, Nat.mod_eq_of_lt hd]
  rw [e]
  generalize t0 % 2 ^ w = a at ha
  generalize 2 ^ w = M at hd hM ha
  by_cases h : a + d < M
  · rw [Nat.mod_eq_of_lt h, show a + d + (M - a) = d + M from by omega, Nat.add_mod_right,
      Nat.mod_eq_of_lt hd]
  · have h2 : (a + d) % M = a + d - M := by
      rw [Nat.mod_eq_sub_mod (by omega), Nat.mod_eq_of_lt (by omega)]
    rw [h2, show a + d - M + (M - a) = d from by omega, Nat.mod_eq_of_lt hd]

/-! ## The claims about `on()` -/

/-- C11: for every state, pin levels and clock values, one call of on() invokes the
handler at most once and changes at most one entry of the stable state; it returns
true exactly when it has invoked the handler, once, and false exactly when it has
not invoked it and has left the stable state as it was. -/
theorem C11_one_transition_per_call (w : Nat) (t : Tick) (s : MyButtons) :
    (s.on w t).handled.length ≤ 1 ∧
    ((s.on w t).st.buttonState = s.buttonState ∨
      ∃ i v, (s.on w t).st.buttonState = s.buttonState.set i v) ∧
    ((s.on w t).ret = true ↔ (s.on w t).handled.length = 1) ∧
    ((s.on w t).ret = false ↔
      (s.on w t).handled = [] ∧ (s.on w t).st.buttonState = s.buttonState) := by
  obtain ⟨h1, h2⟩ := MyButtons.onFrom_once w t s._num 0 0 s
  unfold MyButtons.on
  cases hr : (MyButtons.onFrom w t s._num 0 0 s).ret with
  | true =>
    obtain ⟨ha, hb⟩ := h1 hr
    refine ⟨by rw [ha], Or.inr hb, ⟨fun _ => ha, fun _ => rfl⟩, ⟨fun h => (by cases h), fun h => ?_⟩⟩
    rw [h.1] at ha
    cases ha
  | false =>
    obtain ⟨ha, hb⟩ := h2 hr
    refine ⟨by rw [ha]; exact Nat.zero_le _, Or.inl hb, ⟨fun h => (by cases h), fun h => ?_⟩,
      ⟨fun _ => ⟨ha, hb⟩, fun _ => rfl⟩⟩
    rw [ha] at h
    cases h

/-- C15: with a stored timestamp t0 and a true elapsed time d below 2 ^ w, the clock
reading (t0 + d) mod 2 ^ w makes the test of on() succeed exactly when
d > debounceDelay, whether or not the clock has wrapped; so on() confirms a pending
press of a single button exactly when d > debounceDelay, and not when d equals it. -/
theorem C15_wraparound_strict (w t0 d delay p cb : Nat) (hd : d < 2 ^ w) :
    subU w ((t0 + d) % 2 ^ w) (t0 % 2 ^ w) = d ∧
    (delay < subU w ((t0 + d) % 2 ^ w) (t0 % 2 ^ w) ↔ delay < d) ∧
    (d = delay → ¬ delay < subU w ((t0 + d) % 2 ^ w) (t0 % 2 ^ w)) ∧
    ((MyButtons.on w (Tick.steady pressed (t0 + d)) (single p 1 0 (t0 % 2 ^ w) delay 1 cb)).ret = true
      ↔ delay < d) := by
  have h := subU_add w t0 d hd
  have h2 : subU w (t0 + d) t0 = d := by rw [← subU_mod_mod, h]
  refine ⟨h, by rw [h], fun e => by rw [h, e]; exact Nat.lt_irrefl _, ?_⟩
  by_cases hlt : delay < d
  · rw [on_single_confirm cb w p t0 delay (t0 + d) pressed rfl (by rw [h2]; exact hlt)]
    exact ⟨fun _ => hlt, fun _ => rfl⟩
  · rw [on_single_wait cb w p t0 delay (t0 + d) pressed rfl (by rw [h2]; exact hlt)]
    exact ⟨fun h3 => (by cases h3), fun h3 => absurd h3 hlt⟩

/-- C15 for a 32-bit clock, a timestamp 10 ms before the wrap, 60 ms elapsed and a
delay of 50 ms: the clock reads 50, below the timestamp, and the test succeeds. -/
theorem C15_wraparound_strict_witness :
    60 < 2 ^ 32 ∧ (4294967286 + 60) % 2 ^ 32 = 50 ∧
    subU 32 ((4294967286 + 60) % 2 ^ 32) (4294967286 % 2 ^ 32) = 60 ∧
    (50 < subU 32 ((4294967286 + 60) % 2 ^ 32) (4294967286 % 2 ^ 32) ↔ 50 < 60) :=
  ⟨by decide, by decide, (C15_wraparound_strict 32 4294967286 60 50 2 callback (by decide)).1,
    (C15_wraparound_strict 32 4294967286 60 50 2 callback (by decide)).2.1⟩

/-! ## Which button a call of `on()` reports -/

theorem set_getD_self (l : List Nat) (i d : Nat) : l.set i (l.getD i d) = l := by
  induction l generalizing i with
  | nil => rfl
  | cons a l ih =>
    cases i with
    | zero => rfl
    | succ i =>
      show a :: l.set i (l.getD i d) = a :: l
      rw [ih]

/-- A call that returns true has reported one button `i0`: with the event of the
level read from its pin, and its stable state set to the inverted level. -/
theorem MyButtons.onFrom_true (w : Nat) (t : Tick) (k : Nat) :
    ∀ (i j : Nat) (s : MyButtons), i + k ≤ s.reading.length →
      (MyButtons.onFrom w t k i j s).ret = true →
      ∃ i0, i ≤ i0 ∧ i0 < i + k ∧
        (MyButtons.onFrom w t k i j s).handled =
          [(i0, eventOf (t.digitalRead (s._btnPins.getD i0 0)))] ∧
        (MyButtons.onFrom w t k i j s).st.buttonState =
          s.buttonState.set i0 (s.input t.digitalRead i0) ∧
        s.input t.digitalRead i0 ≠ s.buttonState.getD i0 0 := by
  induction k with
  | zero =>
    intro i j s _ h
    cases h
  | succ k ih =>
    intro i j s hlen
    have hr := MyButtons.readAt_eq s t i (by omega)
    rw [MyButtons.onFrom_succ]
    split_ifs with hc
    · intro _
      refine ⟨i, le_refl _, by omega, ?_, ?_, ?_⟩
      · show handlerCalls i (s.readAt t i) = _
        rw [hr]
        exact handlerCalls_inverted i _
      · show s.buttonState.set i (s.readAt t i) = _
        rw [hr]
      · rw [← hr]
        exact hc.2
    · intro h
      obtain ⟨i0, h1, h2, h3, h4, h5⟩ := ih (i + 1) (s.clockAt t i j + 1)
        { s with
          reading := s.reading.set i (s.input t.digitalRead i)
          lastDebounceTime := s.timerAt w t i j
          lastButtonState := s.lastButtonState.set i (s.readAt t i) }
        (by rw [show ∀ l : List Nat, (l.set i (s.input t.digitalRead i)).length = l.length from
              fun l => List.length_set _ _ _]; omega) h
      exact ⟨i0, by omega, by omega, h3, h4, h5⟩

/-- The loop of `on()` when no reading differs from the last raw reading and the
window has elapsed at every `millis()`: the timestamp and the last raw readings stay
as they are; without a button whose reading differs from its stable state the call
returns false; otherwise it reports the first such button and no other. -/
theorem MyButtons.onFrom_quiet (w : Nat) (t : Tick) (k : Nat) :
    ∀ (i j : Nat) (s : MyButtons), i + k ≤ s.reading.length →
      (∀ n, i ≤ n → n < i + k → s.input t.digitalRead n = s.lastButtonState.getD n 0) →
      (∀ m, s.debounceDelay < subU w (t.millis w m) s.lastDebounceTime) →
      ((MyButtons.onFrom w t k i j s).st.lastDebounceTime = s.lastDebounceTime ∧
        (MyButtons.onFrom w t k i j s).st.lastButtonState = s.lastButtonState) ∧
      ((∀ n, i ≤ n → n < i + k → s.input t.digitalRead n = s.buttonState.getD n 0) →
        (MyButtons.onFrom w t k i j s).ret = false ∧
        (MyButtons.onFrom w t k i j s).handled = [] ∧
        (MyButtons.onFrom w t k i j s).st.buttonState = s.buttonState) ∧
      (∀ i0, i ≤ i0 → i0 < i + k → s.input t.digitalRead i0 ≠ s.buttonState.getD i0 0 →
        (∀ n, i ≤ n → n < i0 → s.input t.digitalRead n = s.buttonState.getD n 0) →
        (MyButtons.onFrom w t k i j s).ret = true ∧
        (MyButtons.onFrom w t k i j s).handled =
          [(i0, eventOf (t.digitalRead (s._btnPins.getD i0 0)))] ∧
        (MyButtons.onFrom w t k i j s).st.buttonState =
          s.buttonState.set i0 (s.input t.digitalRead i0)) := by
  induction k with
  | zero =>
    intro i j s _ _ _
    refine ⟨⟨rfl, rfl⟩, fun _ => ⟨rfl, rfl, rfl⟩, fun i0 h1 h2 => ?_⟩
    omega
  | succ k ih =>
    intro i j s hlen hq hwin
    have hr := MyButtons.readAt_eq s t i (by omega)
    have hsame : s.readAt t i = s.lastButtonState.getD i 0 := by
      rw [hr]
      exact hq i (le_refl _) (by omega)
    have hT : s.timerAt w t i j = s.lastDebounceTime := by
      unfold MyButtons.timerAt
      rw [if_neg (by rw [hsame]; exact fun h => h rfl)]
    have hL : s.lastButtonState.set i (s.readAt t i) = s.lastButtonState := by
      rw [hsame]
      exact set_getD_self _ _ _
    rw [MyButtons.onFrom_succ, hT, hL]
    have hrec := ih (i + 1) (s.clockAt t i j + 1)
      { s with
        reading := s.reading.set i (s.input t.digitalRead i)
        lastDebounceTime := s.lastDebounceTime
        lastButtonState := s.lastButtonState }
      (by rw [show ∀ l : List Nat, (l.set i (s.input t.digitalRead i)).length = l.length from
            fun l => List.length_set _ _ _]; omega)
      (fun n h1 h2 => hq n (by omega) (by omega)) hwin
    by_cases hp : s.readAt t i ≠ s.buttonState.getD i 0
    · rw [if_pos ⟨hwin _, hp⟩]
      refine ⟨⟨rfl, rfl⟩, fun hall => ?_, fun i0 h1 h2 h3 hmin => ?_⟩
      · exact absurd (hall i (le_refl _) (by omega)) (by rw [← hr]; exact hp)
      · have hi : i0 = i := by
          by_contra hne
          exact (by rw [← hr]; exact hp : s.input t.digitalRead i ≠ s.buttonState.getD i 0)
            (hmin i (le_refl _) (by omega))
        subst hi
        refine ⟨rfl, ?_, ?_⟩
        · show handlerCalls i0 (s.readAt t i0) = _
          rw [hr]
          exact handlerCalls_inverted i0 _
        · show s.buttonState.set i0 (s.readAt t i0) = _
          rw [hr]
    · rw [if_neg (fun h => hp h.2)]
      have hp2 : s.input t.digitalRead i = s.buttonState.getD i 0 := by
        rw [← hr]
        exact not_not.mp hp
      refine ⟨hrec.1, fun hall => ?_, fun i0 h1 h2 h3 hmin => ?_⟩
      · exact hrec.2.1 (fun n h1 h2 => hall n (by omega) (by omega))
      · have hi : i ≠ i0 := fun e => h3 (e ▸ hp2)
        exact hrec.2.2 i0 (by omega) (by omega) h3 (fun n h4 h5 => hmin n (by omega) h5)

/-- C12: in a call of on() in which no button's inverted reading differs from its
last raw reading and the window has elapsed at every millis(), if i0 is the lowest
index whose reading differs from its stable state, the call returns true, invokes
the handler for i0 alone, and sets the stable state of i0 alone: the stable state
of every other button, also of a higher one whose reading differs, is unchanged. -/
theorem C12_lowest_index_wins (w : Nat) (t : Tick) (s : MyButtons) (i0 : Nat) (hwf : s.WF)
    (hq : ∀ n, n < s._num → s.input t.digitalRead n = s.lastButtonState.getD n 0)
    (hwin : ∀ m, s.debounceDelay < subU w (t.millis w m) s.lastDebounceTime)
    (hi : i0 < s._num) (hne : s.input t.digitalRead i0 ≠ s.buttonState.getD i0 0)
    (hmin : ∀ n, n < i0 → s.input t.digitalRead n = s.buttonState.getD n 0) :
    (s.on w t).ret = true ∧
    (s.on w t).handled = [(i0, eventOf (t.digitalRead (s._btnPins.getD i0 0)))] ∧
    (s.on w t).st.buttonState = s.buttonState.set i0 (s.input t.digitalRead i0) ∧
    (∀ n, n ≠ i0 → (s.on w t).st.buttonState.getD n 0 = s.buttonState.getD n 0) := by
  obtain ⟨-, h2, -, -⟩ := hwf
  obtain ⟨-, -, h⟩ := MyButtons.onFrom_quiet w t s._num 0 0 s (by omega)
    (fun n _ hn => hq n (by omega)) hwin
  obtain ⟨ha, hb, hc⟩ := h i0 (Nat.zero_le _) (by omega) hne (fun n _ hn => hmin n hn)
  refine ⟨ha, hb, hc, fun n hn => ?_⟩
  show (MyButtons.onFrom w t s._num 0 0 s).st.buttonState.getD n 0 = _
  rw [hc]
  exact getD_set_ne _ _ _ _ _ (fun e => hn e.symm)

/-- C12 for three buttons of which buttons 1 and 2 both read pressed, unchanged, and
are not yet stable: the call at 100 ms reports button 1 only. -/
theorem C12_lowest_index_wins_witness :
    (threeButtons.on 32 (Tick.steady allButPinTwo 100)).ret = true ∧
    (threeButtons.on 32 (Tick.steady allButPinTwo 100)).handled = [(1, button.PRESSED)] ∧
    (threeButtons.on 32 (Tick.steady allButPinTwo 100)).st.buttonState = [0, 1, 0] := by
  have h := C12_lowest_index_wins 32 (Tick.steady allButPinTwo 100) threeButtons 1
    ⟨rfl, rfl, rfl, rfl⟩ (by decide)
    (fun _ => by show 50 < subU 32 (100 % 2 ^ 32) 0; decide) (by decide) (by decide) (by decide)
  exact ⟨h.1, h.2.1, h.2.2.1⟩

/-- C13: whenever on() invokes the handler for button i, the event is PRESSED exactly
when the level read from pin i in that call is LOW (inverted reading 1) and RELEASED
exactly when it is HIGH (inverted reading 0), and afterwards the stable state of
button i is that inverted reading. -/
theorem C13_active_low_mapping (w : Nat) (t : Tick) (s : MyButtons) (i : Nat) (kind : button)
    (hwf : s.WF) (h : (i, kind) ∈ (s.on w t).handled) :
    i < s._num ∧
    (kind = button.PRESSED ↔ t.digitalRead (s._btnPins.getD i 0) = Level.LOW) ∧
    (kind = button.RELEASED ↔ t.digitalRead (s._btnPins.getD i 0) = Level.HIGH) ∧
    (kind = button.PRESSED ↔ s.input t.digitalRead i = 1) ∧
    (kind = button.RELEASED ↔ s.input t.digitalRead i = 0) ∧
    (s.on w t).st.buttonState.getD i 0 = s.input t.digitalRead i := by
  obtain ⟨-, h2, -, h4⟩ := hwf
  have hret : (MyButtons.onFrom w t s._num 0 0 s).ret = true := by
    cases hr : (MyButtons.onFrom w t s._num 0 0 s).ret with
    | true => rfl
    | false =>
      have := ((MyButtons.onFrom_once w t s._num 0 0 s).2 hr).1
      unfold MyButtons.on at h
      rw [this] at h
      cases h
  obtain ⟨i0, -, hlt, hh, hb, -⟩ := MyButtons.onFrom_true w t s._num 0 0 s (by omega) hret
  unfold MyButtons.on at h ⊢
  rw [hh, List.mem_singleton, Prod.mk.injEq] at h
  obtain ⟨rfl, rfl⟩ := h
  rw [hb, getD_set_self _ _ _ _ (by omega)]
  unfold MyButtons.input
  refine ⟨by omega, ?_, ?_, ?_, ?_, rfl⟩ <;>
    cases t.digitalRead (s._btnPins.getD i 0) <;> simp [eventOf, inverted]

/-- C13 for three buttons: the handler is invoked for button 1, whose pin reads LOW,
with PRESSED, and its stable state becomes 1. -/
theorem C13_active_low_mapping_witness :
    (1, button.PRESSED) ∈ (threeButtons.on 32 (Tick.steady allButPinTwo 100)).handled ∧
    (button.PRESSED = button.PRESSED ↔ allButPinTwo 3 = Level.LOW) ∧
    (threeButtons.on 32 (Tick.steady allButPinTwo 100)).st.buttonState.getD 1 0 = 1 := by
  have h := C13_active_low_mapping 32 (Tick.steady allButPinTwo 100) threeButtons 1
    button.PRESSED ⟨rfl, rfl, rfl, rfl⟩ (by decide)
  exact ⟨by decide, h.2.1, h.2.2.2.2.2⟩

/-! ## The shared timestamp under a steady clock -/

/-- Once the timestamp is the current time, the rest of the call confirms nothing. -/
theorem MyButtons.onFrom_fresh (w : Nat) (lv : Nat → Level) (now : Nat) (k : Nat) :
    ∀ (i j : Nat) (s : MyButtons), s.lastDebounceTime = now % 2 ^ w →
      (MyButtons.onFrom w (Tick.steady lv now) k i j s).ret = false ∧
      (MyButtons.onFrom w (Tick.steady lv now) k i j s).handled = [] ∧
      (MyButtons.onFrom w (Tick.steady lv now) k i j s).st.lastDebounceTime = now % 2 ^ w := by
  induction k with
  | zero =>
    intro i j s hs
    exact ⟨rfl, rfl, hs⟩
  | succ k ih =>
    intro i j s hs
    have hT : s.timerAt w (Tick.steady lv now) i j = now % 2 ^ w := by
      unfold MyButtons.timerAt
      split_ifs
      · rfl
      · exact hs
    have hm : ∀ m, (Tick.steady lv now).millis w m = now % 2 ^ w := fun _ => rfl
    rw [MyButtons.onFrom_succ, hT, hm, subU_self, if_neg (fun h => Nat.not_lt_zero _ h.1)]
    exact ih (i + 1) _ _ rfl

/-- Under a steady clock, a button `j0` whose reading differs from its last raw
reading keeps the call from reporting `j0` or any later button; and a call that
gets as far as `j0` leaves the current time as the timestamp. -/
theorem MyButtons.onFrom_suppress (w : Nat) (lv : Nat → Level) (now : Nat) (j0 : Nat) (k : Nat) :
    ∀ (i j : Nat) (s : MyButtons), j0 < s.reading.length → i ≤ j0 → j0 < i + k →
      s.input lv j0 ≠ s.lastButtonState.getD j0 0 →
      (∀ x ∈ (MyButtons.onFrom w (Tick.steady lv now) k i j s).handled, x.1 < j0) ∧
      ((MyButtons.onFrom w (Tick.steady lv now) k i j s).ret = false →
        (MyButtons.onFrom w (Tick.steady lv now) k i j s).st.lastDebounceTime = now % 2 ^ w) := by
  induction k with
  | zero =>
    intro i j s _ h1 h2
    omega
  | succ k ih =>
    intro i j s hlen h1 h2 hchg
    have hm : ∀ m, (Tick.steady lv now).millis w m = now % 2 ^ w := fun _ => rfl
    rw [MyButtons.onFrom_succ]
    by_cases hij : i = j0
    · subst hij
      have hr : s.readAt (Tick.steady lv now) i = s.input lv i := MyButtons.readAt_eq s _ i hlen
      have hT : s.timerAt w (Tick.steady lv now) i j = now % 2 ^ w := by
        unfold MyButtons.timerAt
        rw [if_pos (by rw [hr]; exact hchg)]
        rfl
      rw [hT, hm, subU_self, if_neg (fun h => Nat.not_lt_zero _ h.1)]
      obtain ⟨ha, hb, hc⟩ := MyButtons.onFrom_fresh w lv now k (i + 1)
        (s.clockAt (Tick.steady lv now) i j + 1)
        { s with
          reading := s.reading.set i (s.input (Tick.steady lv now).digitalRead i)
          lastDebounceTime := now % 2 ^ w
          lastButtonState := s.lastButtonState.set i (s.readAt (Tick.steady lv now) i) } rfl
      refine ⟨fun x hx => ?_, fun _ => hc⟩
      rw [hb] at hx
      cases hx
    · split_ifs with hc
      · refine ⟨fun x hx => ?_, fun h => by cases h⟩
        have h01 := MyButtons.readAt_zero_or_one s (Tick.steady lv now) i
        have hx2 : x.1 = i := by
          rcases h01 with e | e <;> rw [e] at hx <;>
            simp only [handlerCalls] at hx <;> simp at hx <;> rw [hx]
        omega
      · exact ih (i + 1) _ _
          (by
            show j0 < (s.reading.set i _).length
            rw [List.length_set]
            exact hlen)
          (by omega) (by omega)
          (by
            show s.input lv j0 ≠ (s.lastButtonState.set i _).getD j0 0
            rw [getD_set_ne _ _ _ _ _ hij]
            exact hchg)

/-- C14: with the clock steady during the call, if the inverted reading of button j0
differs from its last raw reading, on() invokes the handler for no button with index
j0 or higher, and, unless it has returned true for a lower index before reading
button j0, it leaves the current time as the shared timestamp.  Equivalently, if
on() invokes the handler for button i, no button with index <= i has a reading that
differs from its last raw reading. -/
theorem C14_shared_timer_suppression (w now j0 : Nat) (lv : Nat → Level) (s : MyButtons)
    (hwf : s.WF) (hj : j0 < s._num) (hchg : s.input lv j0 ≠ s.lastButtonState.getD j0 0) :
    (∀ x ∈ (s.on w (Tick.steady lv now)).handled, x.1 < j0) ∧
    ((s.on w (Tick.steady lv now)).ret = false →
      (s.on w (Tick.steady lv now)).st.lastDebounceTime = now % 2 ^ w) ∧
    (∀ i kind, (i, kind) ∈ (s.on w (Tick.steady lv now)).handled →
      ∀ n, n ≤ i → s.input lv n = s.lastButtonState.getD n 0) := by
  obtain ⟨-, h2, -, -⟩ := hwf
  obtain ⟨ha, hb⟩ := MyButtons.onFrom_suppress w lv now j0 s._num 0 0 s (by omega)
    (Nat.zero_le _) (by omega) hchg
  refine ⟨ha, hb, fun i kind hmem n hn => ?_⟩
  by_contra hne
  have hret : (MyButtons.onFrom w (Tick.steady lv now) s._num 0 0 s).ret = true := by
    cases hr : (MyButtons.onFrom w (Tick.steady lv now) s._num 0 0 s).ret with
    | true => rfl
    | false =>
      have := ((MyButtons.onFrom_once w (Tick.steady lv now) s._num 0 0 s).2 hr).1
      unfold MyButtons.on at hmem
      rw [this] at hmem
      cases hmem
  obtain ⟨i0, -, hlt, hh, -, -⟩ :=
    MyButtons.onFrom_true w (Tick.steady lv now) s._num 0 0 s (by omega) hret
  have hi : i = i0 := by
    unfold MyButtons.on at hmem
    rw [hh, List.mem_singleton, Prod.mk.injEq] at hmem
    exact hmem.1
  have := (MyButtons.onFrom_suppress w lv now n s._num 0 0 s (by omega) (Nat.zero_le _)
    (by omega) hne).1 (i, kind) hmem
  simp only at this
  omega

/-- C14 for two buttons at 1000 ms: button 1 has read pressed since the timestamp 0,
far longer than the delay of 50 ms, but button 0 changes in this call, so nothing is
reported and the timestamp becomes 1000. -/
theorem C14_shared_timer_suppression_witness :
    (twoButtons.on 32 (Tick.steady pressed 1000)).handled = [] ∧
    (twoButtons.on 32 (Tick.steady pressed 1000)).ret = false ∧
    (twoButtons.on 32 (Tick.steady pressed 1000)).st.lastDebounceTime = 1000 % 2 ^ 32 := by
  have h := C14_shared_timer_suppression 32 1000 0 pressed twoButtons ⟨rfl, rfl, rfl, rfl⟩
    (by decide) (by decide)
  exact ⟨by decide, by decide, h.2.1 (by decide)⟩

/-! ## Array lengths and indices -/

/-- With every index of the remaining iterations inside the four arrays, the
bounds-checked loop does not fail and is the loop of `on()`. -/
theorem MyButtons.onFromChecked_eq (w : Nat) (t : Tick) (k : Nat) :
    ∀ (i j : Nat) (s : MyButtons), i + k ≤ s._btnPins.length → i + k ≤ s.reading.length →
      i + k ≤ s.lastButtonState.length → i + k ≤ s.buttonState.length →
      MyButtons.onFromChecked w t k i j s = some (MyButtons.onFrom w t k i j s) := by
  induction k with
  | zero =>
    intro i j s _ _ _ _
    rfl
  | succ k ih =>
    intro i j s h1 h2 h3 h4
    rw [MyButtons.onFromChecked, if_pos ⟨by omega, by omega, by omega, by omega⟩,
      MyButtons.onFrom]
    by_cases hc : (s.reading.set i (inverted (t.digitalRead (s._btnPins.getD i 0)))).getD i 0 ≠
        s.lastButtonState.getD i 0
    · simp only [hc, if_true, ne_eq, not_false_eq_true, gt_iff_lt]
      rw [ih (i + 1) _ _ (by show i + 1 + k ≤ s._btnPins.length; omega)
        (by show i + 1 + k ≤ (s.reading.set i _).length; rw [List.length_set]; omega)
        (by show i + 1 + k ≤ (s.lastButtonState.set i _).length; rw [List.length_set]; omega)
        (by show i + 1 + k ≤ s.buttonState.length; omega)]
      split_ifs <;> rfl
    · simp only [hc, if_false, ne_eq, not_false_eq_true, gt_iff_lt]
      rw [ih (i + 1) _ _ (by show i + 1 + k ≤ s._btnPins.length; omega)
        (by show i + 1 + k ≤ (s.reading.set i _).length; rw [List.length_set]; omega)
        (by show i + 1 + k ≤ (s.lastButtonState.set i _).length; rw [List.length_set]; omega)
        (by show i + 1 + k ≤ s.buttonState.length; omega)]
      split_ifs <;> rfl

/-- The constructor builds arrays of `num` entries from at least `num` pins. -/
theorem MyButtons.new_wf (btnPins : List Nat) (num handler debounce : Nat) (uninit : Nat → Nat)
    (h : num ≤ btnPins.length) : (MyButtons.new btnPins num handler debounce uninit).WF := by
  refine ⟨?_, ?_, ?_, ?_⟩
  · show (btnPins.take num).length = num
    rw [List.length_take]
    omega
  · show ((List.range num).map uninit).length = num
    rw [List.length_map, List.length_range]
  · exact List.length_replicate _ _
  · exact List.length_replicate _ _

/-- One call of `on()` keeps the lengths, `_num`, the pins and the delay. -/
theorem MyButtons.on_wf (w : Nat) (t : Tick) (s : MyButtons) (h : s.WF) :
    (s.on w t).st.WF ∧ (s.on w t).st._num = s._num ∧ (s.on w t).st._btnPins = s._btnPins ∧
      (s.on w t).st.debounceDelay = s.debounceDelay := by
  obtain ⟨h1, h2, h3, h4, h5, h6⟩ := MyButtons.onFrom_fields w t s._num 0 0 s
  obtain ⟨g1, g2, g3, g4⟩ := h
  unfold MyButtons.on
  exact ⟨⟨by rw [h2, h1]; exact g1, by rw [h4, h1]; exact g2, by rw [h5, h1]; exact g3,
    by rw [h6, h1]; exact g4⟩, h1, h2, h3⟩

theorem MyButtons.after_wf (w : Nat) (ticks : List Tick) :
    ∀ s : MyButtons, s.WF →
      (s.after w ticks).WF ∧ (s.after w ticks)._num = s._num ∧
        (s.after w ticks)._btnPins = s._btnPins ∧
        (s.after w ticks).debounceDelay = s.debounceDelay := by
  induction ticks with
  | nil =>
    intro s h
    exact ⟨h, rfl, rfl, rfl⟩
  | cons t ticks ih =>
    intro s h
    obtain ⟨g, g1, g2, g3⟩ := MyButtons.on_wf w t s h
    obtain ⟨k, k1, k2, k3⟩ := ih (s.on w t).st g
    exact ⟨k, k1.trans g1, k2.trans g2, k3.trans g3⟩

/-- The loop of `on()` never assigns `_handler`. -/
theorem MyButtons.onFrom_handler (w : Nat) (t : Tick) (k : Nat) :
    ∀ (i j : Nat) (s : MyButtons), (MyButtons.onFrom w t k i j s).st._handler = s._handler := by
  induction k with
  | zero =>
    intro i j s
    rfl
  | succ k ih =>
    intro i j s
    rw [MyButtons.onFrom_succ]
    split_ifs
    · rfl
    · exact ih (i + 1) (s.clockAt t i j + 1)
        { s with
          reading := s.reading.set i (s.input t.digitalRead i)
          lastDebounceTime := s.timerAt w t i j
          lastButtonState := s.lastButtonState.set i (s.readAt t i) }

theorem MyButtons.after_handler (w : Nat) (ticks : List Tick) :
    ∀ s : MyButtons, (s.after w ticks)._handler = s._handler := by
  induction ticks with
  | nil =>
    intro s
    rfl
  | cons t ticks ih =>
    intro s
    exact (ih (s.on w t).st).trans (MyButtons.onFrom_handler w t s._num 0 0 s)

/-- The bounds check is a real one: with `_num = 2` and arrays of one entry the
checked `on()` fails in the second iteration. -/
theorem MyButtons.onChecked_detects :
    MyButtons.onChecked 32 (Tick.steady idle 0)
      { _num := 2, _btnPins := [2], lastButtonState := [1], buttonState := [1],
        _handler := callback, lastDebounceTime := 0, debounceDelay := 0, reading := [0] } = none := by
  decide

/-- C17: in every state reached from the constructor, called with num and at least
num pins, by calls of on(), the pin list, the readings, the last raw readings and
the stable states have exactly num entries, and the pin list, num, the delay and
the callback are the constructed ones; a further on() keeps all this, and run with
every array access bounds-checked it never finds an index outside its array. -/
theorem C17_lengths_and_indices (w : Nat) (btnPins : List Nat) (num handler debounce : Nat)
    (uninit : Nat → Nat) (ticks : List Tick) (t : Tick) (h : num ≤ btnPins.length) :
    ((MyButtons.new btnPins num handler debounce uninit).after w ticks)._num = num ∧
    ((MyButtons.new btnPins num handler debounce uninit).after w ticks)._btnPins = btnPins.take num ∧
    ((MyButtons.new btnPins num handler debounce uninit).after w ticks).debounceDelay = debounce ∧
    ((MyButtons.new btnPins num handler debounce uninit).after w ticks)._btnPins.length = num ∧
    ((MyButtons.new btnPins num handler debounce uninit).after w ticks).reading.length = num ∧
    ((MyButtons.new btnPins num handler debounce uninit).after w ticks).lastButtonState.length = num ∧
    ((MyButtons.new btnPins num handler debounce uninit).after w ticks).buttonState.length = num ∧
    ((MyButtons.new btnPins num handler debounce uninit).after w ticks).onChecked w t =
      some (((MyButtons.new btnPins num handler debounce uninit).after w ticks).on w t) ∧
    (((MyButtons.new btnPins num handler debounce uninit).after w ticks).on w t).st._num = num ∧
    (((MyButtons.new btnPins num handler debounce uninit).after w ticks).on w t).st._btnPins =
      btnPins.take num ∧
    (((MyButtons.new btnPins num handler debounce uninit).after w ticks).on w t).st.debounceDelay =
      debounce ∧
    (((MyButtons.new btnPins num handler debounce uninit).after w ticks).on w t).st.WF ∧
    ((MyButtons.new btnPins num handler debounce uninit).after w ticks)._handler = handler ∧
    (((MyButtons.new btnPins num handler debounce uninit).after w ticks).on w t).st._handler =
      handler := by
  have h0 := MyButtons.new_wf btnPins num handler debounce uninit h
  obtain ⟨hw, a1, a2, a3⟩ := MyButtons.after_wf w ticks _ h0
  obtain ⟨gw, g1, g2, g3⟩ := MyButtons.on_wf w t _ hw
  have e1 : ((MyButtons.new btnPins num handler debounce uninit).after w ticks)._num = num := a1
  obtain ⟨l1, l2, l3, l4⟩ := hw
  have c1 : ((MyButtons.new btnPins num handler debounce uninit).after w ticks)._handler =
      handler := MyButtons.after_handler w ticks _
  refine ⟨e1, a2, a3, l1.trans e1, l2.trans e1, l3.trans e1, l4.trans e1, ?_, g1.trans e1,
    g2.trans a2, g3.trans a3, gw, c1, (MyButtons.onFrom_handler w t _ 0 0 _).trans c1⟩
  exact MyButtons.onFromChecked_eq w t _ 0 0 _ (by omega) (by omega) (by omega) (by omega)

/-- C17 for two buttons constructed from a list of three pins, after two calls of
on(): the arrays have two entries and the bounds-checked third call succeeds. -/
theorem C17_lengths_and_indices_witness :
    2 ≤ [2, 3, 4].length ∧
    ((MyButtons.new [2, 3, 4] 2 callback 50 (fun _ => 7)).after 32
      [Tick.steady pressed 0, Tick.steady idle 100])._btnPins = [2, 3] ∧
    ((MyButtons.new [2, 3, 4] 2 callback 50 (fun _ => 7)).after 32
      [Tick.steady pressed 0, Tick.steady idle 100]).buttonState.length = 2 ∧
    ((MyButtons.new [2, 3, 4] 2 callback 50 (fun _ => 7)).after 32
      [Tick.steady pressed 0, Tick.steady idle 100])._handler = callback ∧
    ((MyButtons.new [2, 3, 4] 2 callback 50 (fun _ => 7)).after 32
      [Tick.steady pressed 0, Tick.steady idle 100]).onChecked 32 (Tick.steady pressed 200) =
      some (((MyButtons.new [2, 3, 4] 2 callback 50 (fun _ => 7)).after 32
        [Tick.steady pressed 0, Tick.steady idle 100]).on 32 (Tick.steady pressed 200)) := by
  have h := C17_lengths_and_indices 32 [2, 3, 4] 2 callback 50 (fun _ => 7)
    [Tick.steady pressed 0, Tick.steady idle 100] (Tick.steady pressed 200) (by decide)
  exact ⟨by decide, h.2.1, h.2.2.2.2.2.2.1, h.2.2.2.2.2.2.2.2.2.2.2.2.1, h.2.2.2.2.2.2.2.1⟩

/-! ## Draining the pending transitions -/

/-- The head of a filtered range is the least index that passes the filter, and
dropping it from the filter gives the tail. -/
theorem filter_range_head (p : Nat → Bool) (N i0 : Nat) (rest : List Nat)
    (h : (List.range N).filter p = i0 :: rest) :
    i0 < N ∧ p i0 = true ∧ (∀ n, n < i0 → p n = false) ∧
      (List.range N).filter (fun n => decide (n ≠ i0) && p n) = rest := by
  have hmem : ∀ n, n ∈ i0 :: rest ↔ n < N ∧ p n = true := by
    intro n
    rw [← h, List.mem_filter, List.mem_range]
  have hsorted : (i0 :: rest).Pairwise (· < ·) := by
    rw [← h]
    exact (List.pairwise_lt_range N).filter p
  have hgt : ∀ a ∈ rest, i0 < a := (List.pairwise_cons.mp hsorted).1
  obtain ⟨h1, h2⟩ := (hmem i0).mp (List.mem_cons_self _ _)
  refine ⟨h1, h2, fun n hn => ?_, ?_⟩
  · by_contra hp
    have hp2 : p n = true := by
      cases hpn : p n with
      | true => rfl
      | false => exact absurd hpn hp
    rcases List.mem_cons.mp ((hmem n).mpr ⟨by omega, hp2⟩) with e | e
    · omega
    · have := hgt n e
      omega
  · rw [← List.filter_filter, h, List.filter_cons_of_neg (by simp), List.filter_eq_self]
    intro a ha
    have := hgt a ha
    exact decide_eq_true (by omega)

/-- With the inputs constant at `lv`, every last raw reading equal to its input and
the window elapsed in every call, `n` pending buttons are reported by the next `n`
calls in index order, and call `n + 1` returns false with every stable state equal
to its input. -/
theorem MyButtons.poll_drain (w : Nat) (lv : Nat → Level) (n : Nat) :
    ∀ (s : MyButtons) (ticks : List Tick), s.WF →
      (∀ i, i < s._num → s.input lv i = s.lastButtonState.getD i 0) →
      (∀ t ∈ ticks, t.digitalRead = lv ∧
        ∀ m, s.debounceDelay < subU w (t.millis w m) s.lastDebounceTime) →
      (s.pending lv).length = n → ticks.length = n + 1 →
      outcomes (MyButtons.poll w s ticks) =
        (s.pending lv).map (fun i => (true, [(i, eventOf (lv (s._btnPins.getD i 0)))])) ++
          [(false, [])] ∧
      (∀ i, i < s._num → (s.after w ticks).buttonState.getD i 0 = s.input lv i) := by
  induction n with
  | zero =>
    intro s ticks hwf hq hticks hpend hlen
    obtain ⟨t, rfl⟩ : ∃ t, ticks = [t] := by
      match ticks, hlen with
      | [t], _ => exact ⟨t, rfl⟩
    obtain ⟨hlv, hwin⟩ := hticks t (List.mem_singleton_self _)
    have hnil : s.pending lv = [] := List.length_eq_zero.mp hpend
    have hall : ∀ i, i < s._num → s.input lv i = s.buttonState.getD i 0 := by
      intro i hi
      by_contra hne
      have : i ∈ s.pending lv := by
        unfold MyButtons.pending
        rw [List.mem_filter, List.mem_range]
        exact ⟨hi, decide_eq_true hne⟩
      rw [hnil] at this
      cases this
    obtain ⟨-, h2, -, -⟩ := hwf
    obtain ⟨-, hfalse, -⟩ := MyButtons.onFrom_quiet w t s._num 0 0 s (by omega)
      (fun i _ hi => by rw [hlv]; exact hq i (by omega)) hwin
    obtain ⟨ha, hb, hc⟩ := hfalse (fun i _ hi => by rw [hlv]; exact hall i (by omega))
    refine ⟨?_, fun i hi => ?_⟩
    · rw [hnil]
      show [((s.on w t).ret, (s.on w t).handled)] = [(false, [])]
      unfold MyButtons.on
      rw [ha, hb]
    · show (s.on w t).st.buttonState.getD i 0 = _
      unfold MyButtons.on
      rw [hc]
      exact (hall i hi).symm
  | succ n ih =>
    intro s ticks hwf hq hticks hpend hlen
    obtain ⟨t, ticks, rfl⟩ : ∃ t ts, ticks = t :: ts := by
      match ticks, hlen with
      | t :: ts, _ => exact ⟨t, ts, rfl⟩
    obtain ⟨i0, rest, hcons⟩ : ∃ i0 rest, s.pending lv = i0 :: rest := by
      match hp : s.pending lv, hpend with
      | i0 :: rest, _ => exact ⟨i0, rest, rfl⟩
    obtain ⟨hlv, hwin⟩ := hticks t (List.mem_cons_self _ _)
    obtain ⟨hi0, hp0, hmin, hrest⟩ := filter_range_head _ _ _ _ hcons
    have hne : s.input lv i0 ≠ s.buttonState.getD i0 0 := of_decide_eq_true hp0
    have hmin2 : ∀ i, i < i0 → s.input lv i = s.buttonState.getD i 0 := by
      intro i hi
      exact not_not.mp (of_decide_eq_false (hmin i hi))
    obtain ⟨g1, g2, g3, g4⟩ := hwf
    obtain ⟨⟨hT, hL⟩, -, htrue⟩ := MyButtons.onFrom_quiet w t s._num 0 0 s (by omega)
      (fun i _ hi => by rw [hlv]; exact hq i (by omega)) hwin
    obtain ⟨ha, hb, hc⟩ := htrue i0 (Nat.zero_le _) (by omega) (by rw [hlv]; exact hne)
      (fun i _ hi => by rw [hlv]; exact hmin2 i hi)
    rw [hlv] at hb hc
    obtain ⟨kw, k1, k2, k3⟩ := MyButtons.on_wf w t s ⟨g1, g2, g3, g4⟩
    have hT2 : (s.on w t).st.lastDebounceTime = s.lastDebounceTime := hT
    have hL2 : (s.on w t).st.lastButtonState = s.lastButtonState := hL
    have hB2 : (s.on w t).st.buttonState = s.buttonState.set i0 (s.input lv i0) := hc
    have hin : ∀ i, (s.on w t).st.input lv i = s.input lv i := by
      intro i
      unfold MyButtons.input
      rw [k2]
    have hpend2 : (s.on w t).st.pending lv = rest := by
      rw [← hrest]
      unfold MyButtons.pending
      rw [k1]
      apply List.filter_congr
      intro i hi
      rw [List.mem_range] at hi
      rw [hin, hB2]
      by_cases e : i = i0
      · subst e
        rw [getD_set_self _ _ _ _ (by omega)]
        simp
      · rw [getD_set_ne _ _ _ _ _ (fun e2 => e e2.symm)]
        simp [e]
    obtain ⟨r1, r2⟩ := ih (s.on w t).st ticks kw
      (fun i hi => by rw [hin, hL2]; exact hq i (by rw [← k1]; exact hi))
      (fun t2 ht2 => by
        rw [k3, hT2]
        exact hticks t2 (List.mem_cons_of_mem _ ht2))
      (by rw [hpend2]; rw [hcons] at hpend; exact Nat.succ.inj hpend)
      (Nat.succ.inj hlen)
    refine ⟨?_, fun i hi => ?_⟩
    · show ((s.on w t).ret, (s.on w t).handled) ::
        outcomes (MyButtons.poll w (s.on w t).st ticks) = _
      rw [r1, hpend2, k2, hcons]
      have e1 : (s.on w t).ret = true := ha
      have e2 : (s.on w t).handled = [(i0, eventOf (lv (s._btnPins.getD i0 0)))] := hb
      rw [e1, e2]
      rfl
    · show ((s.on w t).st.after w ticks).buttonState.getD i 0 = _
      rw [r2 i (by rw [k1]; exact hi), hin]

/-- C19: from a state whose last raw readings all equal the inputs, with the inputs
constant and the window elapsed in every call, the pending buttons, those whose
stable state differs from their input, listed in increasing index order, are
reported one per call in that order, each call returning true with the event of
the button's input; the call after the last of them returns false, and every
stable state then equals its input. -/
theorem C19_pending_drained_in_order (w : Nat) (lv : Nat → Level) (s : MyButtons)
    (ticks : List Tick) (hwf : s.WF)
    (hq : ∀ i, i < s._num → s.input lv i = s.lastButtonState.getD i 0)
    (hticks : ∀ t ∈ ticks, t.digitalRead = lv ∧
      ∀ m, s.debounceDelay < subU w (t.millis w m) s.lastDebounceTime)
    (hlen : ticks.length = (s.pending lv).length + 1) :
    (∀ i, i ∈ s.pending lv ↔ i < s._num ∧ s.buttonState.getD i 0 ≠ s.input lv i) ∧
    (s.pending lv).Pairwise (fun a b => a < b) ∧
    outcomes (MyButtons.poll w s ticks) =
      (s.pending lv).map (fun i => (true, [(i, eventOf (lv (s._btnPins.getD i 0)))])) ++
        [(false, [])] ∧
    (∀ i, i < s._num → (s.after w ticks).buttonState.getD i 0 = s.input lv i) := by
  obtain ⟨h1, h2⟩ := MyButtons.poll_drain w lv (s.pending lv).length s ticks hwf hq hticks rfl hlen
  refine ⟨fun i => ?_, ?_, h1, h2⟩
  · unfold MyButtons.pending
    rw [List.mem_filter, List.mem_range, decide_eq_true_iff]
    exact ⟨fun h => ⟨h.1, fun e => h.2 e.symm⟩, fun h => ⟨h.1, fun e => h.2 e.symm⟩⟩
  · unfold MyButtons.pending
    exact (List.pairwise_lt_range _).filter _

/-- C19 for three buttons of which buttons 1 and 2 are pending: the calls at 100 and
110 ms report button 1 and then button 2, the call at 120 ms returns false. -/
theorem C19_pending_drained_in_order_witness :
    threeButtons.pending allButPinTwo = [1, 2] ∧
    outcomes (MyButtons.poll 32 threeButtons
      [Tick.steady allButPinTwo 100, Tick.steady allButPinTwo 110,
        Tick.steady allButPinTwo 120]) =
      [(true, [(1, button.PRESSED)]), (true, [(2, button.PRESSED)]), (false, [])] ∧
    (∀ i, i < 3 → (threeButtons.after 32
      [Tick.steady allButPinTwo 100, Tick.steady allButPinTwo 110,
        Tick.steady allButPinTwo 120]).buttonState.getD i 0 = threeButtons.input allButPinTwo i) := by
  have h := C19_pending_drained_in_order 32 allButPinTwo threeButtons
    [Tick.steady allButPinTwo 100, Tick.steady allButPinTwo 110, Tick.steady allButPinTwo 120]
    ⟨rfl, rfl, rfl, rfl⟩ (by decide)
    (by
      intro t ht
      simp only [List.mem_cons, List.mem_singleton, List.not_mem_nil, or_false] at ht
      rcases ht with e | e | e
      · subst e
        exact ⟨rfl, fun _ => by show 50 < subU 32 (100 % 2 ^ 32) 0; decide⟩
      · subst e
        exact ⟨rfl, fun _ => by show 50 < subU 32 (110 % 2 ^ 32) 0; decide⟩
      · subst e
        exact ⟨rfl, fun _ => by show 50 < subU 32 (120 % 2 ^ 32) 0; decide⟩)
    (by decide)
  exact ⟨by decide, h.2.2.1, h.2.2.2⟩

end UcDivider
